import Mathlib

/-!
Verification development for the `gdynet` preprocessing module
(`gdynet/preprocess.py`): periodic neighbor-graph construction for MD
trajectories.

Modelling conventions:
* Floating point numbers are modelled by exact rationals (`ℚ`).
* Euclidean distances are represented throughout by their squares, which is
  order-isomorphic (distances are nonnegative); a comparison `d <= r` becomes
  `0 <= r ∧ d ^ 2 <= r ^ 2`, and "distance is exactly 0" becomes
  "squared distance is exactly 0".
* Python's stable `sorted(..., key=lambda x: x[1])` is modelled by a stable
  insertion sort keyed on the second component (any two stable sorts agree
  extensionally on a total preorder key).
* Python `assert` failures and raised `ValueError`s are modelled by
  `Except.error`; the error payload models the exception message.
-/

namespace GDyNet

/-- Cartesian 3-vector with exact rational coordinates. -/
structure Vec3 where
  x : ℚ
  y : ℚ
  z : ℚ
deriving DecidableEq

instance : Inhabited Vec3 := ⟨⟨0, 0, 0⟩⟩

def v0 : Vec3 := ⟨0, 0, 0⟩

def vadd (a b : Vec3) : Vec3 := ⟨a.x + b.x, a.y + b.y, a.z + b.z⟩

def vsub (a b : Vec3) : Vec3 := ⟨a.x - b.x, a.y - b.y, a.z - b.z⟩

/-- Squared Euclidean norm. -/
def norm2 (a : Vec3) : ℚ := a.x ^ 2 + a.y ^ 2 + a.z ^ 2

/-- Squared Euclidean distance. -/
def dist2 (a b : Vec3) : ℚ := norm2 (vsub a b)

/-- Lattice matrix: each of `r0, r1, r2` is a row (one lattice vector),
matching the row-vector convention of the source docstring. -/
structure Mat3 where
  r0 : Vec3
  r1 : Vec3
  r2 : Vec3
deriving DecidableEq

instance : Inhabited Mat3 := ⟨⟨v0, v0, v0⟩⟩

/-- Diagonal of a lattice matrix, as used by `np.diagonal(lattice)` in the
kdtree branch of `construct_graph`. -/
def diag3 (m : Mat3) : Vec3 := ⟨m.r0.x, m.r1.y, m.r2.z⟩

/-- Row vector times matrix (`frac · M` turns fractional into Cartesian
coordinates under the row-vector convention). -/
def mulRowVec (v : Vec3) (m : Mat3) : Vec3 :=
  ⟨v.x * m.r0.x + v.y * m.r1.x + v.z * m.r2.x,
   v.x * m.r0.y + v.y * m.r1.y + v.z * m.r2.y,
   v.x * m.r0.z + v.y * m.r1.z + v.z * m.r2.z⟩

def det3 (m : Mat3) : ℚ :=
  m.r0.x * (m.r1.y * m.r2.z - m.r1.z * m.r2.y)
    - m.r0.y * (m.r1.x * m.r2.z - m.r1.z * m.r2.x)
    + m.r0.z * (m.r1.x * m.r2.y - m.r1.y * m.r2.x)

/-- Inverse of a 3x3 matrix via the adjugate formula (rational division by a
zero determinant yields the junk value 0, as in `ℚ`; the source would fail
earlier on a singular lattice). -/
def inv3 (m : Mat3) : Mat3 :=
  let d := det3 m
  ⟨⟨(m.r1.y * m.r2.z - m.r1.z * m.r2.y) / d,
    (m.r0.z * m.r2.y - m.r0.y * m.r2.z) / d,
    (m.r0.y * m.r1.z - m.r0.z * m.r1.y) / d⟩,
   ⟨(m.r1.z * m.r2.x - m.r1.x * m.r2.z) / d,
    (m.r0.x * m.r2.z - m.r0.z * m.r2.x) / d,
    (m.r0.z * m.r1.x - m.r0.x * m.r1.z) / d⟩,
   ⟨(m.r1.x * m.r2.y - m.r1.y * m.r2.x) / d,
    (m.r0.y * m.r2.x - m.r0.x * m.r2.y) / d,
    (m.r0.x * m.r1.y - m.r0.y * m.r1.x) / d⟩⟩

/-- Modelled from the spec: `distance_pbc` lives in the repository module
`gdynet/utils.py`, which is not among the sources; section 4.1 of the spec
specifies it: for each axis independently, subtract from the raw coordinate
difference the nearest integer multiple of that axis length. -/
def wrapAxis (d L : ℚ) : ℚ := d - (round (d / L) : ℚ) * L

/-- Modelled from the spec: squared minimum-image distance of `distance_pbc`
(section 4.1), for an orthogonal box given by its three axis lengths `L`. -/
def distance_pbc2 (p q : Vec3) (L : Vec3) : ℚ :=
  wrapAxis (p.x - q.x) L.x ^ 2 + wrapAxis (p.y - q.y) L.y ^ 2
    + wrapAxis (p.z - q.z) L.z ^ 2

/-! Stable sort keyed on the second (distance) component, modelling Python's
stable `sorted(pairs, key=lambda x: x[1])`. -/

/-- Insert `a` into `l` before the first element whose key is not smaller. -/
def insertSorted (a : ℕ × ℚ) : List (ℕ × ℚ) → List (ℕ × ℚ)
  | [] => [a]
  | b :: t => if a.2 ≤ b.2 then a :: b :: t else b :: insertSorted a t

/-- Stable sort by nondecreasing key (second component). -/
def sortByDist : List (ℕ × ℚ) → List (ℕ × ℚ)
  | [] => []
  | a :: t => insertSorted a (sortByDist t)

/-- Sequential error-propagating map, modelling a Python `for` loop that
appends one result per element and aborts at the first raised exception. -/
def mapE (f : α → Except String β) : List α → Except String (List β)
  | [] => .ok []
  | a :: t =>
    match f a with
    | .error e => .error e
    | .ok b =>
      match mapE f t with
      | .error e => .error e
      | .ok bs => .ok (b :: bs)

/-! The orthogonal (kdtree) backend.  The class `PeriodicCKDTree` and the
function `distance_pbc` live in `gdynet/utils.py`, which is not among the
sources, so the query is modelled from the spec (section 4.2). -/

/-- The 27 integer shifts of the one-ring periodic halo. -/
def shifts3 : List (ℤ × ℤ × ℤ) :=
  ([-1, 0, 1].flatMap fun a =>
    [-1, 0, 1].flatMap fun b =>
      [-1, 0, 1].map fun c => (a, b, c))

/-- Cartesian displacement of an integer image shift in an orthogonal box with
axis lengths `L`. -/
def shiftVec (L : Vec3) (s : ℤ × ℤ × ℤ) : Vec3 :=
  ⟨(s.1 : ℚ) * L.x, (s.2.1 : ℚ) * L.y, (s.2.2 : ℚ) * L.z⟩

/-- Modelled from the spec: membership of point `q` (or one of its one-ring
periodic images) in the closed ball of radius `r` around `p`. -/
def withinBall (L : Vec3) (r : ℚ) (p q : Vec3) : Bool :=
  decide (0 ≤ r) &&
    shifts3.any fun s => decide (dist2 p (vadd q (shiftVec L s)) ≤ r ^ 2)

/-- Modelled from the spec: `PeriodicCKDTree.query_ball_point` from
`gdynet/utils.py` (not among the sources), per section 4.2: the set of source
atom indices having a point (original or one-ring periodic image) within
radius `r` of `p`, returned as a canonical ascending list of indices. -/
def query_ball_point (L : Vec3) (coords : List Vec3) (r : ℚ) (p : Vec3) :
    List ℕ :=
  (List.range coords.length).filter fun j => withinBall L r p (coords.getD j v0)

/-- Candidate (index, squared distance) pairs for query atom `idx` in the
kdtree branch of `construct_graph`: ball-query hits paired with their
`distance_pbc` minimum-image distances (squared), in index order. -/
def kdtree_candidates (L : Vec3) (coords : List Vec3) (r : ℚ) (idx : ℕ) :
    List (ℕ × ℚ) :=
  (query_ball_point L coords r (coords.getD idx v0)).map fun j =>
    (j, distance_pbc2 (coords.getD idx v0) (coords.getD j v0) L)

/-- Sorted candidate list (`nbr_idx_dist` in the source): stable sort of the
candidates by nondecreasing distance. -/
def kdtree_sorted (L : Vec3) (coords : List Vec3) (r : ℚ) (idx : ℕ) :
    List (ℕ × ℚ) :=
  sortByDist (kdtree_candidates L coords r idx)

/-- One atom of the kdtree branch: check the assertion
`nbr_idx_dist[0][1] == 0 and nbr_idx_dist[0][0] == idx and
len(nbr_idx_dist) >= n_nbrs + 1` and return the indices of entries
`1 .. n_nbrs` of the sorted candidate list.  Indexing an empty list raises
before the assertion does. -/
def kdtree_atom (n_nbrs : ℕ) (L : Vec3) (coords : List Vec3) (r : ℚ)
    (idx : ℕ) : Except String (List ℕ) :=
  match kdtree_sorted L coords r idx with
  | [] => .error "IndexError"
  | (j, d) :: rest =>
    if d = 0 ∧ j = idx ∧ n_nbrs + 1 ≤ rest.length + 1 then
      .ok ((rest.take n_nbrs).map Prod.fst)
    else
      .error "AssertionError"

/-- One frame of the kdtree branch: neighbor lists for all atoms, in atom
order, with the lattice replaced by its diagonal. -/
def kdtree_frame (n_nbrs : ℕ) (r : ℚ) (coords : List Vec3) (lattice : Mat3) :
    Except String (List (List ℕ)) :=
  mapE (kdtree_atom n_nbrs (diag3 lattice) coords r) (List.range coords.length)

/-! The general (direct) backend.  The source hands the frame to
`pymatgen.core.structure.IStructure.get_all_neighbors(r, include_index=True)`
(an external collaborator, out of scope per spec section 4.3); we model the
2018-era pymatgen enumeration it performs: iterate over periodic images of the
unit cell in lexicographic order of the integer image vector (ranges derived
from the radius and the reciprocal lattice), within each image over atoms in
index order, and record a candidate `(index, distance)` whenever
`1e-8 < distance <= r`.  The site itself (zero shift, zero distance) is thus
excluded, while periodic images of the query atom are included.  Species
labels do not influence the neighbor search and are omitted. -/

/-- Fractional part in `[0, 1)`, modelling `np.mod(x, 1)`. -/
def fract (q : ℚ) : ℚ := q - (⌊q⌋ : ℚ)

def vfract (v : Vec3) : Vec3 := ⟨fract v.x, fract v.y, fract v.z⟩

/-- Fractional coordinates of a Cartesian point under the row-vector
convention: `frac = cart · M⁻¹`. -/
def frac_coords (m : Mat3) (v : Vec3) : Vec3 := mulRowVec v (inv3 m)

/-- Least natural number whose square is at least `x`; this computes
`⌈Real.sqrt x⌉` for nonnegative rational `x` without leaving `ℚ`. -/
def ceilSqrt (x : ℚ) : ℕ :=
  if x ≤ 0 then 0
  else
    let s := Nat.sqrt ⌈x⌉.toNat
    if x ≤ (s : ℚ) ^ 2 then s else s + 1

/-- Squared lengths of the three columns of `M⁻¹`; these are the squares of
`reciprocal_lattice.abc / (2 * pi)` used by pymatgen to bound the image
search. -/
def recpLen2 (m : Mat3) : Vec3 :=
  let i := inv3 m
  ⟨i.r0.x ^ 2 + i.r1.x ^ 2 + i.r2.x ^ 2,
   i.r0.y ^ 2 + i.r1.y ^ 2 + i.r2.y ^ 2,
   i.r0.z ^ 2 + i.r1.z ^ 2 + i.r2.z ^ 2⟩

/-- Per-axis image bound `maxr = ceil((r + 0.15) * recp_len)`.  For
`r + 0.15 < 0` the ball condition below is vacuous either way, so the clamp
to `0` does not change any candidate list. -/
def maxrAxis (r : ℚ) (recp2 : ℚ) : ℤ :=
  if r + 3 / 20 ≤ 0 then 0 else (ceilSqrt ((r + 3 / 20) ^ 2 * recp2) : ℤ)

def listMinQ : List ℚ → ℚ
  | [] => 0
  | a :: t => t.foldl min a

def listMaxQ : List ℚ → ℚ
  | [] => 0
  | a :: t => t.foldl max a

/-- Integer interval `[a, b)` as an ascending list, modelling
`np.arange(a, b)` on integers. -/
def rangeZ (a b : ℤ) : List ℤ :=
  (List.range (b - a).toNat).map fun (k : ℕ) => a + (k : ℤ)

/-- Per-axis image range: `arange(floor(min frac) - maxr, ceil(max frac) + maxr)`. -/
def imageRange (r : ℚ) (recp2 : ℚ) (fracs : List ℚ) : List ℤ :=
  rangeZ (⌊listMinQ fracs⌋ - maxrAxis r recp2) (⌈listMaxQ fracs⌉ + maxrAxis r recp2)

/-- All periodic images visited by the enumeration, in lexicographic order
(`itertools.product` order). -/
def imageList (m : Mat3) (coords : List Vec3) (r : ℚ) : List (ℤ × ℤ × ℤ) :=
  (imageRange r (recpLen2 m).x
      ((coords.map (frac_coords m)).map Vec3.x)).flatMap fun a =>
    (imageRange r (recpLen2 m).y
        ((coords.map (frac_coords m)).map Vec3.y)).flatMap fun b =>
      (imageRange r (recpLen2 m).z
          ((coords.map (frac_coords m)).map Vec3.z)).map fun c => (a, b, c)

def intVec3 (s : ℤ × ℤ × ℤ) : Vec3 := ⟨(s.1 : ℚ), (s.2.1 : ℚ), (s.2.2 : ℚ)⟩

/-- Positions of the atoms wrapped into the unit cell
(`latt.get_cartesian_coords(np.mod(frac_coords, 1))`). -/
def coordsInCell (m : Mat3) (coords : List Vec3) : List Vec3 :=
  coords.map fun v => mulRowVec (vfract (frac_coords m v)) m

/-- Model of `IStructure.get_all_neighbors(r, include_index=True)` restricted
to query atom `i`: candidate `(index, squared distance)` pairs in enumeration
order (images lexicographic, atom index ascending within an image), keeping a
pair when `1e-8 < dist <= r`.  Distances are measured from the original
Cartesian position of atom `i` to the in-cell position of atom `j` shifted by
the image vector. -/
def direct_candidates (m : Mat3) (coords : List Vec3) (r : ℚ) (i : ℕ) :
    List (ℕ × ℚ) :=
  (imageList m coords r).flatMap fun s =>
    (List.range coords.length).filterMap fun j =>
      if (1 / 100000000 : ℚ) ^ 2
            < dist2 (coords.getD i v0) (vadd (mulRowVec (intVec3 s) m)
                ((coordsInCell m coords).getD j v0)) ∧
          dist2 (coords.getD i v0) (vadd (mulRowVec (intVec3 s) m)
              ((coordsInCell m coords).getD j v0)) ≤ r ^ 2 ∧
          0 ≤ r then
        some (j, dist2 (coords.getD i v0) (vadd (mulRowVec (intVec3 s) m)
          ((coordsInCell m coords).getD j v0)))
      else none

/-- Sorted per-atom candidate list of the direct branch
(`sorted(nbrs, key=lambda x: x[1])` in the source). -/
def direct_sorted (m : Mat3) (coords : List Vec3) (r : ℚ) (i : ℕ) :
    List (ℕ × ℚ) :=
  sortByDist (direct_candidates m coords r i)

/-- One atom of the direct branch: `assert len(nbr) >= self.n_nbrs`, then the
indices and distances of the first `n_nbrs` sorted candidates. -/
def direct_atom (n_nbrs : ℕ) (m : Mat3) (coords : List Vec3) (r : ℚ)
    (i : ℕ) : Except String (List ℕ × List ℚ) :=
  if n_nbrs ≤ (direct_sorted m coords r i).length then
    .ok (((direct_sorted m coords r i).take n_nbrs).map Prod.fst,
      ((direct_sorted m coords r i).take n_nbrs).map Prod.snd)
  else
    .error "AssertionError: not find enough neighbors"

/-- One frame of the direct branch: neighbor index lists and neighbor
distance lists for all atoms, in atom order. -/
def direct_frame (n_nbrs : ℕ) (r : ℚ) (coords : List Vec3) (lattice : Mat3) :
    Except String (List (List ℕ) × List (List ℚ)) :=
  match mapE (direct_atom n_nbrs lattice coords r) (List.range coords.length) with
  | .error e => .error e
  | .ok l => .ok (l.map Prod.fst, l.map Prod.snd)

/-! Top level: configuration, validation and graph construction. -/

/-- Backend selector, validated at construction time. -/
inductive Backend
  | kdtree
  | direct
deriving DecidableEq

/-- Configuration state of a successfully constructed `Preprocess` object
(input/output paths and verbosity do not influence the core and are
omitted). -/
structure Preprocess where
  n_nbrs : ℕ
  radius : ℚ
  backend : Backend
deriving DecidableEq

/-- Model of `Preprocess.__init__`: reject any backend string other than
`"kdtree"` and `"direct"` with a `ValueError` before anything else happens. -/
def init_preprocess (n_nbrs : ℕ) (radius : ℚ) (backend : String) :
    Except String Preprocess :=
  if backend = "kdtree" then .ok ⟨n_nbrs, radius, .kdtree⟩
  else if backend = "direct" then .ok ⟨n_nbrs, radius, .direct⟩
  else .error ("ValueError: backend should be either kdtree or direct, but got "
    ++ backend)

/-- Input archive contents (`traj_coords`, `lattices`, `atom_types`,
`target_index`); the rank/last-dimension constraints of the numpy arrays are
carried by the types. -/
structure InputData where
  traj_coords : List (List Vec3)
  lattices : List Mat3
  atom_types : List ℤ
  target_index : List ℤ
deriving DecidableEq

/-- Result dictionary of `construct_graph`.  The kdtree branch stores the
diagonal lattices and no distances; the direct branch stores distances and no
lattices. -/
structure GraphOutput where
  traj_coords : List (List Vec3)
  lattices : Option (List Vec3)
  atom_types : List ℤ
  target_index : List ℤ
  nbr_lists : List (List (List ℕ))
  nbr_dists : Option (List (List (List ℚ)))
deriving DecidableEq

/-- Two's-complement `int32` cast of `.astype('int32')`. -/
def int32cast (t : ℤ) : ℤ := (t + 2 ^ 31) % 2 ^ 32 - 2 ^ 31

/-- Model of the `np.allclose(lmat, np.diag(np.diagonal(lmat)))` test: with
`atol = 1e-8` and `rtol = 1e-5` it amounts to every off-diagonal entry having
absolute value at most `1e-8` (the comparison matrix vanishes off the
diagonal and agrees exactly on it). -/
def allclose_diag (m : Mat3) : Bool :=
  decide (|m.r0.y| ≤ 1 / 100000000 ∧ |m.r0.z| ≤ 1 / 100000000 ∧
    |m.r1.x| ≤ 1 / 100000000 ∧ |m.r1.z| ≤ 1 / 100000000 ∧
    |m.r2.x| ≤ 1 / 100000000 ∧ |m.r2.y| ≤ 1 / 100000000)

/-- Membership test of `set(target_index).issubset(set(np.arange(N)))`. -/
def targetInRange (target : List ℤ) (n : ℕ) : Bool :=
  target.all fun t => decide (0 ≤ t ∧ t < (n : ℤ))

/-- Model of `Preprocess.load_data` after the archive has been read: the
validation chain in source order, then the dtype casts.  The first two shape
checks of the source (`traj_coords` of rank 3 with last dimension 3,
`lattices` of shape `(F, 3, 3)`) are enforced by the types here.  `float32`
casts are modelled as exact. -/
def load_data (cfg : Preprocess) (d : InputData) : Except String InputData :=
  if d.traj_coords.length ≠ d.lattices.length then
    .error "ValueError: number of frames does not match"
  else if (d.traj_coords.headD []).length ≠ d.atom_types.length then
    .error "ValueError: number of atom does not match"
  else if ¬ targetInRange d.target_index d.atom_types.length then
    .error "ValueError: target_index out of boundary"
  else if cfg.backend = .kdtree ∧ ¬ d.lattices.all allclose_diag then
    .error "ValueError: non-orthogonal lattices can only use direct as backend"
  else
    .ok ⟨d.traj_coords, d.lattices, d.atom_types.map int32cast,
      d.target_index.map int32cast⟩

/-- Model of `Preprocess.construct_graph`: dispatch on the backend, process
the zipped frames in order, stack the per-frame results, and return the
result dictionary with `target_index` passed through. -/
def construct_graph (cfg : Preprocess) (traj_coords : List (List Vec3))
    (lattices : List Mat3) (atom_types : List ℤ) (target_index : List ℤ) :
    Except String GraphOutput :=
  match cfg.backend with
  | .kdtree =>
    match mapE (fun cl => kdtree_frame cfg.n_nbrs cfg.radius cl.1 cl.2)
        (traj_coords.zip lattices) with
    | .error e => .error e
    | .ok frames =>
      .ok ⟨traj_coords,
        some ((traj_coords.zip lattices).map fun cl => diag3 cl.2),
        atom_types, target_index, frames, none⟩
  | .direct =>
    match mapE (fun cl => direct_frame cfg.n_nbrs cfg.radius cl.1 cl.2)
        (traj_coords.zip lattices) with
    | .error e => .error e
    | .ok frames =>
      .ok ⟨traj_coords, none, atom_types, target_index,
        frames.map Prod.fst, some (frames.map Prod.snd)⟩

/-- Model of `Preprocess.preprocess` without the file round-trips: load and
validate, then construct. -/
def run_preprocess (cfg : Preprocess) (d : InputData) :
    Except String GraphOutput :=
  match load_data cfg d with
  | .error e => .error e
  | .ok d2 =>
    construct_graph cfg d2.traj_coords d2.lattices d2.atom_types d2.target_index

/-! Infrastructure lemmas about `mapE` and `sortByDist`. -/

theorem mapE_ok_forall₂ {α β : Type} {f : α → Except String β} :
    ∀ {l : List α} {ys : List β}, mapE f l = .ok ys →
      List.Forall₂ (fun a b => f a = .ok b) l ys := by
  intro l
  induction l with
  | nil =>
    intro ys h
    simp only [mapE] at h
    cases h
    exact List.Forall₂.nil
  | cons a t ih =>
    intro ys h
    simp only [mapE] at h
    cases hf : f a with
    | error e => rw [hf] at h; cases h
    | ok b =>
      rw [hf] at h
      cases ht : mapE f t with
      | error e => rw [ht] at h; cases h
      | ok bs =>
        rw [ht] at h
        cases h
        exact List.Forall₂.cons hf (ih ht)

theorem mapE_ok_length {α β : Type} {f : α → Except String β} {l : List α}
    {ys : List β} (h : mapE f l = .ok ys) : ys.length = l.length :=
  (mapE_ok_forall₂ h).length_eq.symm

theorem mapE_ok_mem {α β : Type} {f : α → Except String β} :
    ∀ {l : List α} {ys : List β}, mapE f l = .ok ys → ∀ {a : α}, a ∈ l →
      ∃ b, b ∈ ys ∧ f a = .ok b := by
  intro l
  induction l with
  | nil => intro ys h a ha; cases ha
  | cons x t ih =>
    intro ys h a ha
    simp only [mapE] at h
    cases hf : f x with
    | error e => rw [hf] at h; cases h
    | ok b =>
      rw [hf] at h
      cases ht : mapE f t with
      | error e => rw [ht] at h; cases h
      | ok bs =>
        rw [ht] at h
        cases h
        rcases List.mem_cons.mp ha with rfl | hat
        · exact ⟨b, List.mem_cons_self _ _, hf⟩
        · rcases ih ht hat with ⟨c, hc, hfc⟩
          exact ⟨c, List.mem_cons_of_mem _ hc, hfc⟩

theorem mapE_error_mem {α β : Type} {f : α → Except String β} :
    ∀ {l : List α} {e : String}, mapE f l = .error e →
      ∃ a, a ∈ l ∧ f a = .error e := by
  intro l
  induction l with
  | nil => intro e h; simp only [mapE] at h; cases h
  | cons a t ih =>
    intro e h
    simp only [mapE] at h
    cases hf : f a with
    | error e2 =>
      rw [hf] at h
      cases h
      exact ⟨a, List.mem_cons_self _ _, hf⟩
    | ok b =>
      rw [hf] at h
      cases ht : mapE f t with
      | error e2 =>
        rw [ht] at h
        cases h
        rcases ih ht with ⟨x, hx, hfx⟩
        exact ⟨x, List.mem_cons_of_mem _ hx, hfx⟩
      | ok bs => rw [ht] at h; cases h

theorem mapE_ok_of_forall {α β : Type} {f : α → Except String β} :
    ∀ {l : List α}, (∀ a, a ∈ l → ∃ b, f a = .ok b) →
      ∃ ys, mapE f l = .ok ys := by
  intro l
  induction l with
  | nil => intro _; exact ⟨[], rfl⟩
  | cons a t ih =>
    intro hall
    rcases hall a (List.mem_cons_self _ _) with ⟨b, hb⟩
    rcases ih (fun x hx => hall x (List.mem_cons_of_mem _ hx)) with ⟨bs, hbs⟩
    exact ⟨b :: bs, by simp only [mapE, hb, hbs]⟩

/-- Nondecreasing-key relation used by the sort. -/
def distLe (a b : ℕ × ℚ) : Prop := a.2 ≤ b.2

/-- Tie-breaking relation: equal keys only ever appear with ascending
indices. -/
def tieLt (a b : ℕ × ℚ) : Prop := a.2 = b.2 → a.1 < b.1

theorem mem_insertSorted {a x : ℕ × ℚ} :
    ∀ {l : List (ℕ × ℚ)}, x ∈ insertSorted a l ↔ x = a ∨ x ∈ l := by
  intro l
  induction l with
  | nil => simp [insertSorted]
  | cons b t ih =>
    by_cases h : a.2 ≤ b.2
    · simp [insertSorted, h]
    · simp only [insertSorted, if_neg h, List.mem_cons, ih]
      tauto

theorem insertSorted_perm (a : ℕ × ℚ) :
    ∀ l : List (ℕ × ℚ), List.Perm (insertSorted a l) (a :: l) := by
  intro l
  induction l with
  | nil => exact List.Perm.refl _
  | cons b t ih =>
    by_cases h : a.2 ≤ b.2
    · simp only [insertSorted, if_pos h]
      exact List.Perm.refl _
    · simp only [insertSorted, if_neg h]
      exact List.Perm.trans (ih.cons b) (List.Perm.swap a b t)

theorem sortByDist_perm : ∀ l : List (ℕ × ℚ), List.Perm (sortByDist l) l := by
  intro l
  induction l with
  | nil => exact List.Perm.refl _
  | cons a t ih =>
    exact List.Perm.trans (insertSorted_perm a (sortByDist t)) (ih.cons a)

theorem length_sortByDist (l : List (ℕ × ℚ)) :
    (sortByDist l).length = l.length :=
  (sortByDist_perm l).length_eq

theorem pairwise_insertSorted {a : ℕ × ℚ} {l : List (ℕ × ℚ)}
    (h : l.Pairwise distLe) : (insertSorted a l).Pairwise distLe := by
  induction l with
  | nil => simp [insertSorted, List.Pairwise]
  | cons b t ih =>
    by_cases hab : a.2 ≤ b.2
    · simp only [insertSorted, if_pos hab]
      refine List.Pairwise.cons ?_ h
      intro c hc
      rcases List.mem_cons.mp hc with rfl | hct
      · exact hab
      · exact le_trans hab ((List.pairwise_cons.mp h).1 c hct)
    · simp only [insertSorted, if_neg hab]
      have hbt := List.pairwise_cons.mp h
      refine List.Pairwise.cons ?_ (ih hbt.2)
      intro c hc
      rcases mem_insertSorted.mp hc with rfl | hct
      · exact le_of_not_le hab
      · exact hbt.1 c hct

theorem sorted_sortByDist : ∀ l : List (ℕ × ℚ), (sortByDist l).Pairwise distLe := by
  intro l
  induction l with
  | nil => simp [sortByDist]
  | cons a t ih => exact pairwise_insertSorted ih

theorem tie_insertSorted {a : ℕ × ℚ} {l : List (ℕ × ℚ)}
    (h : l.Pairwise tieLt) (ha : ∀ b, b ∈ l → tieLt a b) :
    (insertSorted a l).Pairwise tieLt := by
  induction l with
  | nil => simp [insertSorted, List.Pairwise]
  | cons b t ih =>
    have hbt := List.pairwise_cons.mp h
    by_cases hab : a.2 ≤ b.2
    · simp only [insertSorted, if_pos hab]
      exact List.Pairwise.cons ha h
    · simp only [insertSorted, if_neg hab]
      refine List.Pairwise.cons ?_
        (ih hbt.2 fun c hc => ha c (List.mem_cons_of_mem _ hc))
      intro c hc
      rcases mem_insertSorted.mp hc with rfl | hct
      · intro hbc
        exact absurd (le_of_eq hbc.symm) hab
      · exact hbt.1 c hct

theorem tie_sortByDist : ∀ {l : List (ℕ × ℚ)}, l.Pairwise tieLt →
    (sortByDist l).Pairwise tieLt := by
  intro l
  induction l with
  | nil => intro _; simp [sortByDist]
  | cons a t ih =>
    intro h
    have hat := List.pairwise_cons.mp h
    refine tie_insertSorted (ih hat.2) ?_
    intro b hb
    exact hat.1 b ((sortByDist_perm t).mem_iff.mp hb)

/-! Properties of the candidate lists and the per-atom steps. -/

theorem query_ball_point_pairwise (L : Vec3) (coords : List Vec3) (r : ℚ)
    (p : Vec3) : (query_ball_point L coords r p).Pairwise (· < ·) :=
  (List.pairwise_lt_range _).filter _

theorem map_fst_pairing {γ : Type} (g : ℕ → γ) (l : List ℕ) :
    (l.map fun j => (j, g j)).map Prod.fst = l := by
  induction l with
  | nil => rfl
  | cons a t ih => simp [ih]

theorem kdtree_candidates_map_fst (L : Vec3) (coords : List Vec3) (r : ℚ)
    (i : ℕ) : (kdtree_candidates L coords r i).map Prod.fst
      = query_ball_point L coords r (coords.getD i v0) := by
  unfold kdtree_candidates
  exact map_fst_pairing _ _

theorem kdtree_candidates_pairwise_fst (L : Vec3) (coords : List Vec3)
    (r : ℚ) (i : ℕ) :
    (kdtree_candidates L coords r i).Pairwise fun a b => a.1 < b.1 :=
  List.Pairwise.map _ (fun _ _ h => h)
    (query_ball_point_pairwise L coords r (coords.getD i v0))

theorem kdtree_candidates_tie (L : Vec3) (coords : List Vec3) (r : ℚ)
    (i : ℕ) : (kdtree_candidates L coords r i).Pairwise tieLt := by
  refine (kdtree_candidates_pairwise_fst L coords r i).imp ?_
  intro a b h _
  exact h

theorem kdtree_sorted_tie (L : Vec3) (coords : List Vec3) (r : ℚ) (i : ℕ) :
    (kdtree_sorted L coords r i).Pairwise tieLt :=
  tie_sortByDist (kdtree_candidates_tie L coords r i)

theorem kdtree_sorted_sorted (L : Vec3) (coords : List Vec3) (r : ℚ) (i : ℕ) :
    (kdtree_sorted L coords r i).Pairwise distLe :=
  sorted_sortByDist _

theorem kdtree_sorted_fst_nodup (L : Vec3) (coords : List Vec3) (r : ℚ)
    (i : ℕ) : ((kdtree_sorted L coords r i).map Prod.fst).Nodup := by
  have h1 : List.Perm ((kdtree_sorted L coords r i).map Prod.fst)
      ((kdtree_candidates L coords r i).map Prod.fst) :=
    (sortByDist_perm _).map _
  rw [kdtree_candidates_map_fst] at h1
  exact h1.nodup_iff.mpr
    ((query_ball_point_pairwise L coords r _).imp fun h => Nat.ne_of_lt h)

theorem kdtree_atom_ok_elim {n : ℕ} {L : Vec3} {coords : List Vec3} {r : ℚ}
    {i : ℕ} {lst : List ℕ} (h : kdtree_atom n L coords r i = .ok lst) :
    ∃ rest, kdtree_sorted L coords r i = (i, 0) :: rest ∧ n ≤ rest.length ∧
      lst = (rest.take n).map Prod.fst := by
  unfold kdtree_atom at h
  cases hs : kdtree_sorted L coords r i with
  | nil => rw [hs] at h; cases h
  | cons hd rest =>
    obtain ⟨j, d⟩ := hd
    rw [hs] at h
    simp only at h
    by_cases hc : d = 0 ∧ j = i ∧ n + 1 ≤ rest.length + 1
    · rw [if_pos hc] at h
      cases h
      obtain ⟨h0, hji, hlen⟩ := hc
      subst h0
      subst hji
      exact ⟨rest, rfl, Nat.succ_le_succ_iff.mp hlen, rfl⟩
    · rw [if_neg hc] at h
      cases h

theorem direct_atom_ok_iff {n : ℕ} {m : Mat3} {coords : List Vec3} {r : ℚ}
    {i : ℕ} {res : List ℕ × List ℚ} :
    direct_atom n m coords r i = .ok res ↔
      n ≤ (direct_sorted m coords r i).length ∧
        res = (((direct_sorted m coords r i).take n).map Prod.fst,
          ((direct_sorted m coords r i).take n).map Prod.snd) := by
  unfold direct_atom
  by_cases hn : n ≤ (direct_sorted m coords r i).length
  · rw [if_pos hn]
    constructor
    · intro h; cases h; exact ⟨hn, rfl⟩
    · intro h; rw [h.2]
  · rw [if_neg hn]
    constructor
    · intro h; cases h
    · intro h; exact absurd h.1 hn

theorem direct_atom_error_iff {n : ℕ} {m : Mat3} {coords : List Vec3}
    {r : ℚ} {i : ℕ} {e : String} :
    direct_atom n m coords r i = .error e ↔
      (direct_sorted m coords r i).length < n ∧
        e = "AssertionError: not find enough neighbors" := by
  unfold direct_atom
  by_cases hn : n ≤ (direct_sorted m coords r i).length
  · rw [if_pos hn]
    constructor
    · intro h; cases h
    · intro h; exact absurd hn (Nat.not_le.mpr h.1)
  · rw [if_neg hn]
    constructor
    · intro h; cases h; exact ⟨Nat.not_le.mp hn, rfl⟩
    · intro h; rw [h.2]

theorem construct_graph_kdtree_ok {cfg : Preprocess}
    (hb : cfg.backend = .kdtree) {traj : List (List Vec3)}
    {lats : List Mat3} {ats tg : List ℤ} {out : GraphOutput}
    (h : construct_graph cfg traj lats ats tg = .ok out) :
    ∃ frames,
      mapE (fun cl => kdtree_frame cfg.n_nbrs cfg.radius cl.1 cl.2)
        (traj.zip lats) = .ok frames ∧
      out = ⟨traj, some ((traj.zip lats).map fun cl => diag3 cl.2), ats, tg,
        frames, none⟩ := by
  unfold construct_graph at h
  rw [hb] at h
  cases hm : mapE (fun cl => kdtree_frame cfg.n_nbrs cfg.radius cl.1 cl.2)
      (traj.zip lats) with
  | error e => rw [hm] at h; cases h
  | ok frames =>
    rw [hm] at h
    cases h
    exact ⟨frames, rfl, rfl⟩

theorem construct_graph_direct_ok {cfg : Preprocess}
    (hb : cfg.backend = .direct) {traj : List (List Vec3)}
    {lats : List Mat3} {ats tg : List ℤ} {out : GraphOutput}
    (h : construct_graph cfg traj lats ats tg = .ok out) :
    ∃ frames,
      mapE (fun cl => direct_frame cfg.n_nbrs cfg.radius cl.1 cl.2)
        (traj.zip lats) = .ok frames ∧
      out = ⟨traj, none, ats, tg, frames.map Prod.fst,
        some (frames.map Prod.snd)⟩ := by
  unfold construct_graph at h
  rw [hb] at h
  cases hm : mapE (fun cl => direct_frame cfg.n_nbrs cfg.radius cl.1 cl.2)
      (traj.zip lats) with
  | error e => rw [hm] at h; cases h
  | ok frames =>
    rw [hm] at h
    cases h
    exact ⟨frames, rfl, rfl⟩

theorem direct_frame_ok_elim {n : ℕ} {r : ℚ} {coords : List Vec3}
    {lattice : Mat3} {fr : List (List ℕ) × List (List ℚ)}
    (h : direct_frame n r coords lattice = .ok fr) :
    ∃ l, mapE (direct_atom n lattice coords r) (List.range coords.length)
        = .ok l ∧ fr = (l.map Prod.fst, l.map Prod.snd) := by
  unfold direct_frame at h
  cases hm : mapE (direct_atom n lattice coords r)
      (List.range coords.length) with
  | error e => rw [hm] at h; cases h
  | ok l =>
    rw [hm] at h
    cases h
    exact ⟨l, rfl, rfl⟩

theorem direct_frame_error_iff {n : ℕ} {r : ℚ} {coords : List Vec3}
    {lattice : Mat3} {e : String} :
    direct_frame n r coords lattice = .error e ↔
      mapE (direct_atom n lattice coords r) (List.range coords.length)
        = .error e := by
  unfold direct_frame
  cases hm : mapE (direct_atom n lattice coords r)
      (List.range coords.length) with
  | error e2 =>
    constructor
    · intro h; cases h; rfl
    · intro h; cases h; rfl
  | ok l =>
    constructor
    · intro h; cases h
    · intro h; cases h

theorem mapE_ok_mem_rev {α β : Type} {f : α → Except String β} :
    ∀ {l : List α} {ys : List β}, mapE f l = .ok ys → ∀ {b : β}, b ∈ ys →
      ∃ a, a ∈ l ∧ f a = .ok b := by
  intro l
  induction l with
  | nil =>
    intro ys h b hb
    simp only [mapE] at h
    cases h
    cases hb
  | cons x t ih =>
    intro ys h b hb
    simp only [mapE] at h
    cases hf : f x with
    | error e => rw [hf] at h; cases h
    | ok c =>
      rw [hf] at h
      cases ht : mapE f t with
      | error e => rw [ht] at h; cases h
      | ok bs =>
        rw [ht] at h
        cases h
        rcases List.mem_cons.mp hb with rfl | hbt
        · exact ⟨x, List.mem_cons_self _ _, hf⟩
        · rcases ih ht hbt with ⟨a, ha, hfa⟩
          exact ⟨a, List.mem_cons_of_mem _ ha, hfa⟩

theorem targetInRange_iff {target : List ℤ} {n : ℕ} :
    targetInRange target n = true ↔ ∀ t ∈ target, 0 ≤ t ∧ t < (n : ℤ) := by
  unfold targetInRange
  rw [List.all_eq_true]
  constructor
  · intro h t ht
    simpa using h t ht
  · intro h t ht
    simpa using h t ht

theorem int32cast_eq_self {t : ℤ} (h1 : -(2 ^ 31) ≤ t) (h2 : t < 2 ^ 31) :
    int32cast t = t := by
  unfold int32cast
  omega

theorem mapE_ok_getD {α β : Type} {f : α → Except String β} :
    ∀ {l : List α} {ys : List β}, mapE f l = .ok ys →
      ∀ {i : ℕ}, i < l.length → ∀ (da : α) (db : β),
        f (l.getD i da) = .ok (ys.getD i db) := by
  intro l
  induction l with
  | nil =>
    intro ys h i hi da db
    simp at hi
  | cons x t ih =>
    intro ys h i hi da db
    simp only [mapE] at h
    cases hf : f x with
    | error e => rw [hf] at h; cases h
    | ok b =>
      rw [hf] at h
      cases ht : mapE f t with
      | error e => rw [ht] at h; cases h
      | ok bs =>
        rw [ht] at h
        cases h
        cases i with
        | zero => simpa using hf
        | succ k =>
          simpa using ih ht (Nat.lt_of_succ_lt_succ hi) da db

theorem kdtree_frame_ok_shape {n : ℕ} {r : ℚ} {coords : List Vec3}
    {lattice : Mat3} {fr : List (List ℕ)}
    (h : kdtree_frame n r coords lattice = .ok fr) :
    fr.length = coords.length ∧ ∀ lst ∈ fr, lst.length = n := by
  constructor
  · rw [mapE_ok_length h, List.length_range]
  · intro lst hl
    rcases mapE_ok_mem_rev h hl with ⟨i, _, hat⟩
    rcases kdtree_atom_ok_elim hat with ⟨rest, _, hn, hlst⟩
    rw [hlst, List.length_map, List.length_take]
    exact Nat.min_eq_left hn

theorem direct_frame_ok_shape {n : ℕ} {r : ℚ} {coords : List Vec3}
    {lattice : Mat3} {fr : List (List ℕ) × List (List ℚ)}
    (h : direct_frame n r coords lattice = .ok fr) :
    fr.1.length = coords.length ∧ (∀ lst ∈ fr.1, lst.length = n) ∧
      fr.2.length = coords.length ∧ ∀ row ∈ fr.2, row.length = n := by
  rcases direct_frame_ok_elim h with ⟨l, hm, hfr⟩
  subst hfr
  have hlen : l.length = coords.length := by
    rw [mapE_ok_length hm, List.length_range]
  refine ⟨by simpa using hlen, ?_, by simpa using hlen, ?_⟩
  · intro lst hl
    rcases List.mem_map.mp hl with ⟨p, hp, hpl⟩
    rcases mapE_ok_mem_rev hm hp with ⟨i, _, hat⟩
    rcases direct_atom_ok_iff.mp hat with ⟨hn, hres⟩
    rw [← hpl, hres]
    simp only [List.length_map, List.length_take]
    exact Nat.min_eq_left hn
  · intro row hrow
    rcases List.mem_map.mp hrow with ⟨p, hp, hpl⟩
    rcases mapE_ok_mem_rev hm hp with ⟨i, _, hat⟩
    rcases direct_atom_ok_iff.mp hat with ⟨hn, hres⟩
    rw [← hpl, hres]
    simp only [List.length_map, List.length_take]
    exact Nat.min_eq_left hn

theorem construct_graph_direct_error {cfg : Preprocess}
    (hb : cfg.backend = .direct) {traj : List (List Vec3)}
    {lats : List Mat3} {ats tg : List ℤ} {e : String}
    (h : construct_graph cfg traj lats ats tg = .error e) :
    mapE (fun cl => direct_frame cfg.n_nbrs cfg.radius cl.1 cl.2)
      (traj.zip lats) = .error e := by
  unfold construct_graph at h
  rw [hb] at h
  cases hm : mapE (fun cl => direct_frame cfg.n_nbrs cfg.radius cl.1 cl.2)
      (traj.zip lats) with
  | error e2 => rw [hm] at h; cases h; rfl
  | ok frames => rw [hm] at h; cases h

theorem kdtree_atom_ok_no_self {n : ℕ} {L : Vec3} {coords : List Vec3}
    {r : ℚ} {i : ℕ} {lst : List ℕ}
    (h : kdtree_atom n L coords r i = .ok lst) : i ∉ lst := by
  rcases kdtree_atom_ok_elim h with ⟨rest, hs, _, hlst⟩
  have hnodup := kdtree_sorted_fst_nodup L coords r i
  rw [hs] at hnodup
  simp only [List.map_cons] at hnodup
  have hni : i ∉ rest.map Prod.fst := (List.nodup_cons.mp hnodup).1
  intro hmem
  apply hni
  rw [hlst] at hmem
  rcases List.mem_map.mp hmem with ⟨p, hp, hpi⟩
  exact List.mem_map.mpr ⟨p, List.mem_of_mem_take hp, hpi⟩

/-! Concrete inputs used by the counterexamples and witnesses. -/

/-- Scenario 1 of the spec: cubic box of side 10, atoms at the origin and at
(9.5, 0, 0). -/
def coordsS1 : List Vec3 := [⟨0, 0, 0⟩, ⟨19/2, 0, 0⟩]

/-- Unit cubic box lattice. -/
def lat1 : Mat3 := ⟨⟨1, 0, 0⟩, ⟨0, 1, 0⟩, ⟨0, 0, 1⟩⟩

/-- A single atom at the origin. -/
def coords1 : List Vec3 := [⟨0, 0, 0⟩]

/-- Three collinear atoms producing an equal-distance tie across periodic
images: atom 0 is at squared distance 4 from atom 1 (central cell) and from
atom 2 (image shifted by -10 in x). -/
def coordsTie : List Vec3 := [⟨1/2, 5, 5⟩, ⟨5/2, 5, 5⟩, ⟨17/2, 5, 5⟩]

/-- Three collinear atoms, the third of which has no neighbor within radius
6/5. -/
def coords3 : List Vec3 := [⟨0, 0, 0⟩, ⟨1, 0, 0⟩, ⟨5, 0, 0⟩]

/-! Claim theorems. -/

/-- C8: constructing a `Preprocess` object with a backend selector other than
"kdtree" or "direct" raises a `ValueError` at construction time (before any
data is loaded or any frame is processed, since `__init__` does nothing
else); with either supported value construction succeeds. -/
theorem C8_init_backend_validation (n : ℕ) (r : ℚ) (s : String) :
    ((∃ e, init_preprocess n r s = .error e) ↔ s ≠ "kdtree" ∧ s ≠ "direct") ∧
    (s = "kdtree" → init_preprocess n r s = .ok ⟨n, r, .kdtree⟩) ∧
    (s = "direct" → init_preprocess n r s = .ok ⟨n, r, .direct⟩) := by
  unfold init_preprocess
  by_cases h1 : s = "kdtree"
  · subst h1
    simp
  · by_cases h2 : s = "direct"
    · subst h2
      simp
    · simp [h1, h2]

/-- C8 witness: an unsupported selector is rejected, the two supported ones
are accepted, at the default configuration `n_nbrs = 20`, `radius = 7`. -/
theorem C8_init_backend_validation_witness :
    (∃ e, init_preprocess 20 7 "balltree" = .error e) ∧
      init_preprocess 20 7 "kdtree" = .ok ⟨20, 7, .kdtree⟩ ∧
      init_preprocess 20 7 "direct" = .ok ⟨20, 7, .direct⟩ :=
  ⟨(C8_init_backend_validation 20 7 "balltree").1.mpr
      ⟨by decide, by decide⟩,
    (C8_init_backend_validation 20 7 "kdtree").2.1 rfl,
    (C8_init_backend_validation 20 7 "direct").2.2 rfl⟩

/-- C6: with the kdtree backend, an input containing a lattice that fails the
`np.allclose` diagonality test is rejected by `load_data` with an error, which
also aborts `run_preprocess` before `construct_graph` (the neighbor search)
runs; with the direct backend the lattice check never fires, and `load_data`
accepts any lattices provided the other validations pass. -/
theorem C6_lattice_validation (cfg : Preprocess) (d : InputData) :
    (cfg.backend = .kdtree →
      (∃ m, m ∈ d.lattices ∧ allclose_diag m = false) →
      ∃ e, load_data cfg d = .error e ∧ run_preprocess cfg d = .error e) ∧
    (cfg.backend = .direct →
      d.traj_coords.length = d.lattices.length →
      (d.traj_coords.headD []).length = d.atom_types.length →
      targetInRange d.target_index d.atom_types.length = true →
      load_data cfg d = .ok ⟨d.traj_coords, d.lattices,
        d.atom_types.map int32cast, d.target_index.map int32cast⟩) := by
  constructor
  · intro hb hm
    have hall : ¬ (d.lattices.all allclose_diag = true) := by
      rcases hm with ⟨m, hmem, hfalse⟩
      intro hall
      have h2 := List.all_eq_true.mp hall m hmem
      rw [hfalse] at h2
      cases h2
    have herr : ∃ e, load_data cfg d = .error e := by
      unfold load_data
      by_cases h1 : d.traj_coords.length ≠ d.lattices.length
      · rw [if_pos h1]; exact ⟨_, rfl⟩
      · rw [if_neg h1]
        by_cases h2 : (d.traj_coords.headD []).length ≠ d.atom_types.length
        · rw [if_pos h2]; exact ⟨_, rfl⟩
        · rw [if_neg h2]
          by_cases h3 : ¬ (targetInRange d.target_index d.atom_types.length
              = true)
          · rw [if_pos h3]; exact ⟨_, rfl⟩
          · rw [if_neg h3]
            rw [if_pos ⟨hb, hall⟩]
            exact ⟨_, rfl⟩
    rcases herr with ⟨e, he⟩
    refine ⟨e, he, ?_⟩
    unfold run_preprocess
    rw [he]
  · intro hb h1 h2 h3
    unfold load_data
    rw [if_neg (not_not_intro h1), if_neg (not_not_intro h2),
      if_neg (not_not_intro h3)]
    rw [if_neg ?_]
    intro hc
    rw [hb] at hc
    exact Backend.noConfusion hc.1

def latShear : Mat3 := ⟨⟨10, 3, 0⟩, ⟨0, 10, 0⟩, ⟨0, 0, 10⟩⟩

def dShear : InputData := ⟨[[⟨0, 0, 0⟩]], [latShear], [8], [0]⟩

/-- C6 witness: a sheared lattice aborts a kdtree run inside `load_data`, and
is accepted by `load_data` for a direct run. -/
theorem C6_lattice_validation_witness :
    (∃ e, load_data ⟨1, 2, .kdtree⟩ dShear = .error e ∧
      run_preprocess ⟨1, 2, .kdtree⟩ dShear = .error e) ∧
    load_data ⟨1, 2, .direct⟩ dShear = .ok ⟨dShear.traj_coords,
      dShear.lattices, [8], [0]⟩ :=
  ⟨(C6_lattice_validation ⟨1, 2, .kdtree⟩ dShear).1 rfl
      ⟨latShear, by simp [dShear], by with_unfolding_all rfl⟩,
    (C6_lattice_validation ⟨1, 2, .direct⟩ dShear).2 rfl rfl rfl
      (by with_unfolding_all rfl)⟩

/-- C10: `load_data` validates `target_index` only by checking every value
lies in `0 .. N-1` (set-subset semantics): duplicates and arbitrary length
pass; on success the target array is returned cast to int32, which leaves it
unchanged whenever `N` fits in int32 range. -/
theorem C10_target_validation (cfg : Preprocess) (d : InputData)
    (h1 : d.traj_coords.length = d.lattices.length)
    (h2 : (d.traj_coords.headD []).length = d.atom_types.length)
    (h3 : cfg.backend = .direct ∨ d.lattices.all allclose_diag = true) :
    ((∃ o, load_data cfg d = .ok o) ↔
      ∀ t ∈ d.target_index, 0 ≤ t ∧ t < (d.atom_types.length : ℤ)) ∧
    (∀ o, load_data cfg d = .ok o →
      o.target_index = d.target_index.map int32cast ∧
      ((d.atom_types.length : ℤ) ≤ 2 ^ 31 →
        (∀ t ∈ d.target_index, 0 ≤ t ∧ t < (d.atom_types.length : ℤ)) →
        o.target_index = d.target_index)) := by
  have h4 : ¬ (cfg.backend = .kdtree ∧
      ¬ (d.lattices.all allclose_diag = true)) := by
    rcases h3 with h3 | h3
    · intro hc
      rw [h3] at hc
      exact Backend.noConfusion hc.1
    · intro hc
      exact hc.2 h3
  unfold load_data
  rw [if_neg (not_not_intro h1), if_neg (not_not_intro h2)]
  by_cases ht : targetInRange d.target_index d.atom_types.length = true
  · rw [if_neg (not_not_intro ht), if_neg h4]
    constructor
    · constructor
      · intro _
        exact targetInRange_iff.mp ht
      · intro _
        exact ⟨_, rfl⟩
    · intro o ho
      cases ho
      refine ⟨rfl, ?_⟩
      intro h31 hrange
      show d.target_index.map int32cast = d.target_index
      have : ∀ t ∈ d.target_index, int32cast t = t := by
        intro t htm
        rcases hrange t htm with ⟨ha, hb⟩
        exact int32cast_eq_self (by omega) (by omega)
      rw [List.map_congr_left this]
      exact List.map_id' d.target_index
  · rw [if_pos ht]
    constructor
    · constructor
      · intro ⟨o, ho⟩
        cases ho
      · intro hall
        exact absurd (targetInRange_iff.mpr hall) ht
    · intro o ho
      cases ho

def lat10 : Mat3 := ⟨⟨10, 0, 0⟩, ⟨0, 10, 0⟩, ⟨0, 0, 10⟩⟩

def dDup : InputData := ⟨[[⟨0, 0, 0⟩]], [lat10], [8], [0, 0, 0]⟩

/-- C10 witness: a duplicated, longer-than-N target array with in-range
values is accepted and returned unchanged. -/
theorem C10_target_validation_witness :
    ∃ o, load_data ⟨1, 2, .direct⟩ dDup = .ok o ∧
      o.target_index = [0, 0, 0] := by
  have h := C10_target_validation ⟨1, 2, .direct⟩ dDup rfl rfl (Or.inl rfl)
  rcases h.1.mpr (by decide) with ⟨o, ho⟩
  have h2 := (h.2 o ho).2 (by decide) (by decide)
  exact ⟨o, ho, h2⟩

/-- C5: whenever `construct_graph` succeeds (either backend), it returns
`target_index` unchanged together with the input coordinates, and produces
one neighbor list per atom for every frame — `F x N x n_nbrs` — regardless
of the target subset. -/
theorem C5_full_shape (cfg : Preprocess) (traj : List (List Vec3))
    (lats : List Mat3) (ats tg : List ℤ) (out : GraphOutput)
    (hF : traj.length = lats.length)
    (h : construct_graph cfg traj lats ats tg = .ok out) :
    out.target_index = tg ∧ out.traj_coords = traj ∧
      out.nbr_lists.length = traj.length ∧
      List.Forall₂ (fun (cl : List Vec3 × Mat3) (fr : List (List ℕ)) =>
          fr.length = cl.1.length ∧ ∀ lst ∈ fr, lst.length = cfg.n_nbrs)
        (traj.zip lats) out.nbr_lists := by
  have hzip : (traj.zip lats).length = traj.length := by
    rw [List.length_zip, hF, Nat.min_self]
  cases hb : cfg.backend with
  | kdtree =>
    rcases construct_graph_kdtree_ok hb h with ⟨frames, hm, hout⟩
    subst hout
    refine ⟨rfl, rfl, ?_, ?_⟩
    · show frames.length = traj.length
      rw [mapE_ok_length hm, hzip]
    · exact (mapE_ok_forall₂ hm).imp fun _ _ hfr => kdtree_frame_ok_shape hfr
  | direct =>
    rcases construct_graph_direct_ok hb h with ⟨frames, hm, hout⟩
    subst hout
    refine ⟨rfl, rfl, ?_, ?_⟩
    · show (frames.map Prod.fst).length = traj.length
      rw [List.length_map, mapE_ok_length hm, hzip]
    · show List.Forall₂ _ (traj.zip lats) (frames.map Prod.fst)
      rw [List.forall₂_map_right_iff]
      refine (mapE_ok_forall₂ hm).imp ?_
      intro cl fr hfr
      have hs := direct_frame_ok_shape hfr
      exact ⟨hs.1, hs.2.1⟩

/-- Expected kdtree output on Scenario 1 of the spec. -/
def outS1K : GraphOutput :=
  ⟨[coordsS1], some [⟨10, 10, 10⟩], [8, 8], [0], [[[1], [0]]], none⟩

/-- C5 witness: the shape facts instantiated on a concrete successful kdtree
run (Scenario 1 of the spec). -/
theorem C5_full_shape_witness :
    outS1K.target_index = [0] ∧ outS1K.traj_coords = [coordsS1] ∧
      outS1K.nbr_lists.length = [coordsS1].length ∧
      List.Forall₂ (fun (cl : List Vec3 × Mat3) (fr : List (List ℕ)) =>
          fr.length = cl.1.length ∧ ∀ lst ∈ fr, lst.length = 1)
        ([coordsS1].zip [lat10]) outS1K.nbr_lists :=
  C5_full_shape ⟨1, 2, .kdtree⟩ [coordsS1] [lat10] [8, 8] [0] outS1K rfl
    (by with_unfolding_all rfl)

/-- C1 (amended): whenever `construct_graph` succeeds, every returned
neighbor list (both backends) has exactly `n_nbrs` entries; with the kdtree
backend the list computed for query atom `i` never contains `i` itself.  The
self-exclusion half fails for the direct backend, whose candidates may be
periodic images of the query atom (see the counterexample). -/
theorem C1_neighbor_count (cfg : Preprocess) (traj : List (List Vec3))
    (lats : List Mat3) (ats tg : List ℤ) (out : GraphOutput)
    (h : construct_graph cfg traj lats ats tg = .ok out) :
    (∀ fr ∈ out.nbr_lists, ∀ lst ∈ fr, lst.length = cfg.n_nbrs) ∧
    (cfg.backend = .kdtree → ∀ k, k < out.nbr_lists.length →
      ∀ i, i < (out.nbr_lists.getD k []).length →
        i ∉ (out.nbr_lists.getD k []).getD i []) := by
  constructor
  · intro fr hfr lst hlst
    cases hb : cfg.backend with
    | kdtree =>
      rcases construct_graph_kdtree_ok hb h with ⟨frames, hm, hout⟩
      subst hout
      rcases mapE_ok_mem_rev hm hfr with ⟨cl, _, hframe⟩
      exact (kdtree_frame_ok_shape hframe).2 lst hlst
    | direct =>
      rcases construct_graph_direct_ok hb h with ⟨frames, hm, hout⟩
      subst hout
      rcases List.mem_map.mp hfr with ⟨p, hp, hpf⟩
      rcases mapE_ok_mem_rev hm hp with ⟨cl, _, hframe⟩
      have hs := direct_frame_ok_shape hframe
      rw [← hpf] at hlst
      exact hs.2.1 lst hlst
  · intro hb k hk i hi
    rcases construct_graph_kdtree_ok hb h with ⟨frames, hm, hout⟩
    subst hout
    have hk2 : k < (traj.zip lats).length := by
      rw [← mapE_ok_length hm]
      exact hk
    have hframe := mapE_ok_getD hm hk2 ([], default) []
    have hi2 : i < ((traj.zip lats).getD k ([], default)).1.length := by
      rw [← (kdtree_frame_ok_shape hframe).1]
      exact hi
    have hat := mapE_ok_getD hframe
      (by rw [List.length_range]; exact hi2) 0 []
    have hrange : (List.range
        ((traj.zip lats).getD k ([], default)).1.length).getD i 0 = i := by
      rw [List.getD_eq_getElem?_getD, List.getElem?_range hi2]
      rfl
    rw [hrange] at hat
    exact kdtree_atom_ok_no_self hat

/-- C1 witness: the count and kdtree-no-self facts instantiated on the
concrete successful Scenario 1 kdtree run. -/
theorem C1_neighbor_count_witness :
    (∀ fr ∈ outS1K.nbr_lists, ∀ lst ∈ fr, lst.length = 1) ∧
      ((⟨1, 2, .kdtree⟩ : Preprocess).backend = .kdtree →
        ∀ k, k < outS1K.nbr_lists.length →
          ∀ i, i < (outS1K.nbr_lists.getD k []).length →
            i ∉ (outS1K.nbr_lists.getD k []).getD i []) :=
  C1_neighbor_count ⟨1, 2, .kdtree⟩ [coordsS1] [lat10] [8, 8] [0] outS1K
    (by with_unfolding_all rfl)

/-- Direct-backend output on the single-atom unit box: the sole neighbor of
atom 0 is atom 0 itself, through a periodic image at squared distance 1. -/
def outSelf : GraphOutput :=
  ⟨[coords1], none, [8], [0], [[[0]]], some [[[1]]]⟩

/-- C1 counterexample: a successful direct-backend run (one atom in a unit
cubic box, radius 2, `n_nbrs = 1`) whose returned neighbor list for atom 0
contains the query atom's own index 0. -/
theorem C1_counterexample :
    construct_graph ⟨1, 2, .direct⟩ [coords1] [lat1] [8] [0] = .ok outSelf ∧
      (outSelf.nbr_lists.getD 0 []).getD 0 [] = [0] ∧ (0 : ℕ) ∈ [0] :=
  ⟨by with_unfolding_all rfl, rfl, by simp⟩

/-- C2 (amended): candidates are sorted stably by nondecreasing (squared)
distance in both backends, so all returned distance rows are nondecreasing;
the kdtree backend enumerates candidates in ascending index order, hence its
equal-distance ties come out in ascending index order; the direct backend's
ties instead follow the external enumerator's image-then-index order, which
need not be index-ascending (see the counterexample). -/
theorem C2_ordering :
    (∀ (L : Vec3) (coords : List Vec3) (r : ℚ) (i : ℕ),
      (kdtree_sorted L coords r i).Pairwise
        fun a b => a.2 ≤ b.2 ∧ (a.2 = b.2 → a.1 < b.1)) ∧
    (∀ (cfg : Preprocess) (traj : List (List Vec3)) (lats : List Mat3)
      (ats tg : List ℤ) (out : GraphOutput) (dists : List (List (List ℚ))),
      construct_graph cfg traj lats ats tg = .ok out →
      out.nbr_dists = some dists →
      ∀ fr ∈ dists, ∀ row ∈ fr, row.Pairwise (· ≤ ·)) := by
  constructor
  · intro L coords r i
    exact (kdtree_sorted_sorted L coords r i).and (kdtree_sorted_tie L coords r i)
  · intro cfg traj lats ats tg out dists h hd fr hfr row hrow
    cases hb : cfg.backend with
    | kdtree =>
      rcases construct_graph_kdtree_ok hb h with ⟨frames, hm, hout⟩
      subst hout
      cases hd
    | direct =>
      rcases construct_graph_direct_ok hb h with ⟨frames, hm, hout⟩
      subst hout
      have hdists : dists = frames.map Prod.snd := by
        cases hd
        rfl
      subst hdists
      rcases List.mem_map.mp hfr with ⟨p, hp, hpf⟩
      rcases mapE_ok_mem_rev hm hp with ⟨cl, _, hframe⟩
      rcases direct_frame_ok_elim hframe with ⟨l, hml, hpl⟩
      rw [← hpf] at hrow
      rw [hpl] at hrow
      rcases List.mem_map.mp hrow with ⟨q, hq, hql⟩
      rcases mapE_ok_mem_rev hml hq with ⟨i, _, hat⟩
      rcases direct_atom_ok_iff.mp hat with ⟨hn, hres⟩
      rw [← hql, hres]
      have hs : (direct_sorted cl.2 cl.1 cfg.radius i).Pairwise distLe :=
        sorted_sortByDist _
      have ht := List.Pairwise.sublist
        (List.take_sublist cfg.n_nbrs (direct_sorted cl.2 cl.1 cfg.radius i)) hs
      exact ht.map _ fun a b hab => hab

/-- Direct-backend output on Scenario 1 of the spec. -/
def outS1D : GraphOutput :=
  ⟨[coordsS1], none, [8, 8], [0], [[[1], [0]]], some [[[1/4], [1/4]]]⟩

/-- C2 witness: the distance rows of a concrete successful direct run are
nondecreasing. -/
theorem C2_ordering_witness :
    ∀ fr ∈ ([[[(1 : ℚ)/4], [(1 : ℚ)/4]]] : List (List (List ℚ))),
      ∀ row ∈ fr, row.Pairwise (· ≤ ·) :=
  C2_ordering.2 ⟨1, 2, .direct⟩ [coordsS1] [lat10] [8, 8] [0] outS1D _
    (by with_unfolding_all rfl) rfl

/-- C2 counterexample: a successful direct-backend run in which atom 0's
returned neighbors sit at equal squared distance 4 but appear as [2, 1] —
descending indices — because the enumerator emits atom 2's periodic image
(image vector (-1,0,0)) before atom 1's central-cell entry and the stable
sort keys on distance alone. -/
theorem C2_counterexample :
    construct_graph ⟨2, 4, .direct⟩ [coordsTie] [lat10] [8, 8, 8] [0]
      = .ok ⟨[coordsTie], none, [8, 8, 8], [0],
          [[[2, 1], [0, 2], [0, 1]]],
          some [[[4, 4], [4, 16], [4, 16]]]⟩ := by
  with_unfolding_all rfl

/-- C3 (amended): with the kdtree backend, every atom of every frame of a
run that returns a graph has its sorted candidate list headed by the query
atom itself at (squared) distance exactly 0 — the assertion aborts the run
otherwise.  The direct backend performs no such check: its candidate list
excludes the self entry entirely (see the counterexample). -/
theorem C3_self_head_kdtree (cfg : Preprocess) (traj : List (List Vec3))
    (lats : List Mat3) (ats tg : List ℤ) (out : GraphOutput)
    (hb : cfg.backend = .kdtree)
    (h : construct_graph cfg traj lats ats tg = .ok out) :
    ∀ cl ∈ traj.zip lats, ∀ i, i < cl.1.length →
      ∃ rest, kdtree_sorted (diag3 cl.2) cl.1 cfg.radius i = (i, 0) :: rest := by
  intro cl hcl i hi
  rcases construct_graph_kdtree_ok hb h with ⟨frames, hm, _⟩
  rcases mapE_ok_mem hm hcl with ⟨fr, _, hframe⟩
  rcases mapE_ok_mem hframe (List.mem_range.mpr hi) with ⟨lst, _, hat⟩
  rcases kdtree_atom_ok_elim hat with ⟨rest, hs, _, _⟩
  exact ⟨rest, hs⟩

/-- C3 witness: the kdtree self-head property instantiated on the concrete
Scenario 1 run. -/
theorem C3_self_head_kdtree_witness :
    ∃ rest, kdtree_sorted (diag3 lat10) coordsS1 2 0 = (0, 0) :: rest :=
  C3_self_head_kdtree ⟨1, 2, .kdtree⟩ [coordsS1] [lat10] [8, 8] [0] outS1K
    rfl (by with_unfolding_all rfl) (coordsS1, lat10) (by simp) 0
    (by simp [coordsS1])

/-- C3 counterexample: a successful direct-backend run (Scenario 1) whose
sorted candidate list for atom 0 starts with atom 1 at squared distance 1/4
— not the query atom at distance 0 — and aborts nothing. -/
theorem C3_counterexample :
    construct_graph ⟨1, 2, .direct⟩ [coordsS1] [lat10] [8, 8] [0]
        = .ok outS1D ∧
      direct_sorted lat10 coordsS1 2 0 = [(1, 1/4)] ∧
      ¬ ((1, (1/4 : ℚ)) = ((0 : ℕ), (0 : ℚ))) :=
  ⟨by with_unfolding_all rfl, by with_unfolding_all rfl, by simp⟩

/-- C4 (amended): the direct-backend construction fails — returning an error
and no graph — exactly when some atom of some frame has fewer candidates
than `n_nbrs`; but the error is the constant assertion message, carrying no
frame index, atom index, or candidate count (see the counterexample). -/
theorem C4_insufficient_neighbors (cfg : Preprocess)
    (traj : List (List Vec3)) (lats : List Mat3) (ats tg : List ℤ)
    (hb : cfg.backend = .direct) :
    (∃ cl ∈ traj.zip lats, ∃ i, i < cl.1.length ∧
        (direct_sorted cl.2 cl.1 cfg.radius i).length < cfg.n_nbrs) ↔
      construct_graph cfg traj lats ats tg
        = .error "AssertionError: not find enough neighbors" := by
  constructor
  · rintro ⟨cl, hcl, i, hi, hlen⟩
    have hnotok : ∀ out, construct_graph cfg traj lats ats tg ≠ .ok out := by
      intro out hok
      rcases construct_graph_direct_ok hb hok with ⟨frames, hm, _⟩
      rcases mapE_ok_mem hm hcl with ⟨fr, _, hframe⟩
      rcases direct_frame_ok_elim hframe with ⟨l, hml, _⟩
      rcases mapE_ok_mem hml (List.mem_range.mpr hi) with ⟨p, _, hat⟩
      exact absurd (direct_atom_ok_iff.mp hat).1 (Nat.not_le.mpr hlen)
    cases hc : construct_graph cfg traj lats ats tg with
    | ok out => exact absurd hc (hnotok out)
    | error e =>
      have hmap := construct_graph_direct_error hb hc
      rcases mapE_error_mem hmap with ⟨cl2, _, hframe⟩
      rw [direct_frame_error_iff] at hframe
      rcases mapE_error_mem hframe with ⟨i2, _, hat⟩
      rw [direct_atom_error_iff] at hat
      rw [hat.2]
  · intro hc
    have hmap := construct_graph_direct_error hb hc
    rcases mapE_error_mem hmap with ⟨cl, hcl, hframe⟩
    rw [direct_frame_error_iff] at hframe
    rcases mapE_error_mem hframe with ⟨i, hi, hat⟩
    rw [direct_atom_error_iff] at hat
    exact ⟨cl, hcl, i, List.mem_range.mp hi, hat.1⟩

/-- C4 witness: the equivalence instantiated on a concrete failing run (one
atom, radius 1/2, no candidates). -/
theorem C4_insufficient_neighbors_witness :
    ∃ cl ∈ [coords1].zip [lat1], ∃ i, i < cl.1.length ∧
      (direct_sorted cl.2 cl.1 (1/2) i).length < 1 :=
  (C4_insufficient_neighbors ⟨1, 1/2, .direct⟩ [coords1] [lat1] [8] [0]
    rfl).mpr (by with_unfolding_all rfl)

/-- C4 counterexample: two direct runs failing at different atoms with
different candidate counts produce the identical error value, so the error
carries no frame/atom/count context. -/
theorem C4_counterexample :
    construct_graph ⟨1, 1/2, .direct⟩ [coords1] [lat1] [8] [0]
        = .error "AssertionError: not find enough neighbors" ∧
      construct_graph ⟨1, 6/5, .direct⟩ [coords3] [lat10] [8, 8, 8] [0]
        = .error "AssertionError: not find enough neighbors" ∧
      (direct_candidates lat1 coords1 (1/2) 0).length = 0 ∧
      (direct_candidates lat10 coords3 (6/5) 0).length = 1 ∧
      (direct_candidates lat10 coords3 (6/5) 2).length = 0 :=
  ⟨by with_unfolding_all rfl, by with_unfolding_all rfl,
    by with_unfolding_all rfl, by with_unfolding_all rfl,
    by with_unfolding_all rfl⟩

/-- Direct-backend output on the single-atom unit box with `n_nbrs = 2`:
atom 0 is listed twice, through two distinct periodic images. -/
def outSelf2 : GraphOutput :=
  ⟨[coords1], none, [8], [0], [[[0, 0]]], some [[[1, 1]]]⟩

/-- C7 (amended): `construct_graph` performs no degenerate-radius check: the
only error the direct construction can produce is the insufficient-neighbors
assertion, and a radius exceeding half the shortest box length is processed
normally — the direct backend then double-counts atoms via distinct periodic
images. -/
theorem C7_no_radius_check :
    (∀ (cfg : Preprocess) (traj : List (List Vec3)) (lats : List Mat3)
      (ats tg : List ℤ) (e : String), cfg.backend = .direct →
      construct_graph cfg traj lats ats tg = .error e →
      e = "AssertionError: not find enough neighbors") ∧
    construct_graph ⟨2, 2, .direct⟩ [coords1] [lat1] [8] [0]
      = .ok outSelf2 ∧
    (outSelf2.nbr_lists.getD 0 []).getD 0 [] = [0, 0] := by
  refine ⟨?_, by with_unfolding_all rfl, rfl⟩
  intro cfg traj lats ats tg e hb h
  have hmap := construct_graph_direct_error hb h
  rcases mapE_error_mem hmap with ⟨cl, _, hframe⟩
  rw [direct_frame_error_iff] at hframe
  rcases mapE_error_mem hframe with ⟨i, _, hat⟩
  exact (direct_atom_error_iff.mp hat).2

/-- C7 witness: the error characterization applied to a concrete failing
direct run. -/
theorem C7_no_radius_check_witness :
    construct_graph ⟨1, 1/2, .direct⟩ [coords1] [lat1] [8] [0]
        = .error "AssertionError: not find enough neighbors" ∧
      "AssertionError: not find enough neighbors"
        = "AssertionError: not find enough neighbors" :=
  ⟨by with_unfolding_all rfl,
    C7_no_radius_check.1 ⟨1, 1/2, .direct⟩ [coords1] [lat1] [8] [0] _ rfl
      (by with_unfolding_all rfl)⟩

/-- C7 counterexample: radius 2 exceeds half the shortest box length (1/2)
of the unit box, yet the construction is not rejected: it returns a graph
(which double-counts atom 0). -/
theorem C7_counterexample :
    (1 : ℚ)/2 < 2 ∧
      construct_graph ⟨2, 2, .direct⟩ [coords1] [lat1] [8] [0]
        = .ok outSelf2 :=
  ⟨by norm_num, by with_unfolding_all rfl⟩

/-- C9 counterexample: on an orthogonal lattice with radius 4 strictly below
half the box length 10, the two backends return different neighbor sets for
atom 0 ({1} for kdtree, {2} for direct): the equal-distance tie at the
truncation boundary is broken by index for kdtree but by enumeration order
for direct. -/
theorem C9_counterexample :
    construct_graph ⟨1, 4, .kdtree⟩ [coordsTie] [lat10] [8, 8, 8] [0]
        = .ok ⟨[coordsTie], some [⟨10, 10, 10⟩], [8, 8, 8], [0],
            [[[1], [0], [0]]], none⟩ ∧
      construct_graph ⟨1, 4, .direct⟩ [coordsTie] [lat10] [8, 8, 8] [0]
        = .ok ⟨[coordsTie], none, [8, 8, 8], [0],
            [[[2], [0], [0]]], some [[[4], [4], [4]]]⟩ ∧
      ¬ (([1] : List ℕ) = [2]) :=
  ⟨by with_unfolding_all rfl, by with_unfolding_all rfl, by simp⟩

/-! Toward the general backend-agreement statement for claim C9: geometric
facts relating the spec-modelled minimum-image distance to the periodic-image
enumeration of the direct backend, on diagonal lattices. -/

/-- Diagonal lattice matrix with axis lengths `L`. -/
def mkDiag (L : Vec3) : Mat3 := ⟨⟨L.x, 0, 0⟩, ⟨0, L.y, 0⟩, ⟨0, 0, L.z⟩⟩

/-- Squared distance from `p` to the image of `q` shifted by `s` boxes. -/
def d2img (L : Vec3) (p q : Vec3) (s : ℤ × ℤ × ℤ) : ℚ :=
  dist2 p (vadd q (shiftVec L s))

/-- The per-axis rounding shift that realizes the minimum image. -/
def optShift (L : Vec3) (p q : Vec3) : ℤ × ℤ × ℤ :=
  (round ((p.x - q.x) / L.x), round ((p.y - q.y) / L.y),
    round ((p.z - q.z) / L.z))

theorem wrapAxis_sq_le {d Lq : ℚ} (hL : 0 < Lq) (k : ℤ) :
    wrapAxis d Lq ^ 2 ≤ (d - (k : ℚ) * Lq) ^ 2 := by
  unfold wrapAxis
  set x := d / Lq with hx
  have hd : d = x * Lq := by
    rw [hx]
    field_simp
  by_cases hk : k = round x
  · subst hk
    exact le_of_eq rfl
  · have h1 : |x - (round x : ℚ)| ≤ 1/2 := abs_sub_round x
    have h2 : (1 : ℚ) ≤ |(round x : ℚ) - (k : ℚ)| := by
      have hz : (1 : ℤ) ≤ |round x - k| :=
        Int.one_le_abs (sub_ne_zero.mpr (Ne.symm hk))
      exact_mod_cast hz
    have h3 : (1/2 : ℚ) ≤ |x - (k : ℚ)| := by
      have ht := abs_sub_le (round x : ℚ) x (k : ℚ)
      have hc : |(round x : ℚ) - x| = |x - (round x : ℚ)| := abs_sub_comm _ _
      linarith
    have ha : (x - (round x : ℚ))^2 ≤ (1/2 : ℚ)^2 := by
      rw [← sq_abs]
      exact pow_le_pow_left₀ (abs_nonneg _) h1 2
    have hb : ((1:ℚ)/2)^2 ≤ (x - (k:ℚ))^2 := by
      rw [← sq_abs (x - (k:ℚ))]
      exact pow_le_pow_left₀ (by norm_num) h3 2
    have key : Lq^2 * (x - (round x:ℚ))^2 ≤ Lq^2 * (x - (k:ℚ))^2 :=
      mul_le_mul_of_nonneg_left (ha.trans hb) (sq_nonneg Lq)
    have e1 : (x * Lq - (round x:ℚ) * Lq)^2 = Lq^2 * (x - (round x:ℚ))^2 := by
      ring
    have e2 : (x * Lq - (k:ℚ)*Lq)^2 = Lq^2 * (x - (k:ℚ))^2 := by
      ring
    rw [hd, e1, e2]
    exact key

theorem distance_pbc2_nonneg (p q L : Vec3) : 0 ≤ distance_pbc2 p q L := by
  unfold distance_pbc2
  positivity

theorem distance_pbc2_self (p L : Vec3) : distance_pbc2 p p L = 0 := by
  unfold distance_pbc2 wrapAxis
  simp

theorem distance_pbc2_le_d2img {L : Vec3} (hx : 0 < L.x) (hy : 0 < L.y)
    (hz : 0 < L.z) (p q : Vec3) (s : ℤ × ℤ × ℤ) :
    distance_pbc2 p q L ≤ d2img L p q s := by
  have h1 := wrapAxis_sq_le (d := p.x - q.x) hx s.1
  have h2 := wrapAxis_sq_le (d := p.y - q.y) hy s.2.1
  have h3 := wrapAxis_sq_le (d := p.z - q.z) hz s.2.2
  unfold distance_pbc2 d2img dist2 norm2 vsub vadd shiftVec
  have e1 : p.x - (q.x + (s.1:ℚ) * L.x) = (p.x - q.x) - (s.1:ℚ) * L.x := by
    ring
  have e2 : p.y - (q.y + (s.2.1:ℚ) * L.y) = (p.y - q.y) - (s.2.1:ℚ) * L.y := by
    ring
  have e3 : p.z - (q.z + (s.2.2:ℚ) * L.z) = (p.z - q.z) - (s.2.2:ℚ) * L.z := by
    ring
  simp only [e1, e2, e3]
  linarith

theorem d2img_optShift (L p q : Vec3) :
    d2img L p q (optShift L p q) = distance_pbc2 p q L := by
  unfold d2img optShift distance_pbc2 dist2 norm2 vsub vadd shiftVec wrapAxis
  ring

theorem round_mem_of_abs_lt_one {x : ℚ} (h : |x| < 1) :
    round x = -1 ∨ round x = 0 ∨ round x = 1 := by
  have h1 : ((round x : ℤ) : ℚ) ≤ x + 1/2 := by
    rw [round_eq]
    exact Int.floor_le _
  have h2 : x + 1/2 < ((round x : ℤ) : ℚ) + 1 := by
    rw [round_eq]
    exact Int.lt_floor_add_one _
  have hab := abs_lt.mp h
  have hl : (-2 : ℚ) < ((round x : ℤ) : ℚ) := by linarith
  have hr : ((round x : ℤ) : ℚ) < 2 := by linarith
  have hbl : (-2 : ℤ) < round x := by exact_mod_cast hl
  have hbr : round x < 2 := by exact_mod_cast hr
  omega

theorem half_le_of_round_eq_one {x : ℚ} (h : round x = 1) : 1/2 ≤ x := by
  have h1 : ((round x : ℤ) : ℚ) ≤ x + 1/2 := by
    rw [round_eq]
    exact Int.floor_le _
  rw [h] at h1
  push_cast at h1
  linarith

/-- Well-behaved frame for backend agreement: positive axis lengths, a
positive radius strictly below half of every axis, all atoms inside the box,
all distinct-pair minimum-image distances above the direct backend's `1e-8`
tolerance, and no equal-distance tie among the neighbors of any query atom
within the radius. -/
def GoodFrame (L : Vec3) (coords : List Vec3) (r : ℚ) : Prop :=
  0 < L.x ∧ 0 < L.y ∧ 0 < L.z ∧ 0 < r ∧
  2 * r < L.x ∧ 2 * r < L.y ∧ 2 * r < L.z ∧
  (∀ p ∈ coords, 0 ≤ p.x ∧ p.x < L.x ∧ 0 ≤ p.y ∧ p.y < L.y ∧
    0 ≤ p.z ∧ p.z < L.z) ∧
  (∀ i ∈ List.range coords.length, ∀ j ∈ List.range coords.length, i ≠ j →
    (1/100000000 : ℚ)^2
      < distance_pbc2 (coords.getD i v0) (coords.getD j v0) L) ∧
  (∀ i ∈ List.range coords.length, ∀ j ∈ List.range coords.length,
    ∀ k ∈ List.range coords.length, j ≠ k →
    distance_pbc2 (coords.getD i v0) (coords.getD j v0) L ≤ r^2 →
    distance_pbc2 (coords.getD i v0) (coords.getD k v0) L ≤ r^2 →
    distance_pbc2 (coords.getD i v0) (coords.getD j v0) L ≠
      distance_pbc2 (coords.getD i v0) (coords.getD k v0) L)

theorem mem_shifts3 {a b c : ℤ} (h1 : -1 ≤ a ∧ a ≤ 1) (h2 : -1 ≤ b ∧ b ≤ 1)
    (h3 : -1 ≤ c ∧ c ≤ 1) : (a, b, c) ∈ shifts3 := by
  have ha : a = -1 ∨ a = 0 ∨ a = 1 := by omega
  have hb : b = -1 ∨ b = 0 ∨ b = 1 := by omega
  have hc : c = -1 ∨ c = 0 ∨ c = 1 := by omega
  rcases ha with rfl | rfl | rfl <;> rcases hb with rfl | rfl | rfl <;>
    rcases hc with rfl | rfl | rfl <;> decide

theorem round_bounds_of_abs_lt {x : ℚ} (h : |x| < 1) :
    -1 ≤ round x ∧ round x ≤ 1 := by
  rcases round_mem_of_abs_lt_one h with he | he | he <;> omega

theorem getD_mem_of_lt {α : Type} {l : List α} {i : ℕ} (h : i < l.length)
    (d : α) : l.getD i d ∈ l := by
  rw [List.getD_eq_getElem?_getD, List.getElem?_eq_getElem h,
    Option.getD_some]
  exact List.getElem_mem h

theorem d2img_expand (L p q : Vec3) (s : ℤ × ℤ × ℤ) :
    d2img L p q s = (p.x - (q.x + (s.1:ℚ) * L.x))^2
      + (p.y - (q.y + (s.2.1:ℚ) * L.y))^2
      + (p.z - (q.z + (s.2.2:ℚ) * L.z))^2 := rfl

theorem axis_contradiction {Lq r u v c : ℚ} (hr : 0 < r) (hL : 2*r < Lq)
    (hc : 1 ≤ c) (hkey : (u - v)^2 = c * Lq^2)
    (hu : u^2 ≤ r^2) (hv : v^2 ≤ r^2) : False := by
  have hA : Lq^2 - 4*r^2 > 0 := by nlinarith
  have hB : (u - v)^2 ≤ 4*r^2 := by nlinarith [sq_nonneg (u + v)]
  have hC : Lq^2 ≤ c * Lq^2 := by nlinarith [sq_nonneg Lq]
  rw [hkey] at hB
  linarith

theorem withinBall_true_iff {L : Vec3} {r : ℚ} {p q : Vec3}
    (hx : 0 < L.x) (hy : 0 < L.y) (hz : 0 < L.z) (hr : 0 ≤ r)
    (hbx : |p.x - q.x| < L.x) (hby : |p.y - q.y| < L.y)
    (hbz : |p.z - q.z| < L.z) :
    withinBall L r p q = true ↔ distance_pbc2 p q L ≤ r^2 := by
  unfold withinBall
  rw [Bool.and_eq_true, decide_eq_true_iff, List.any_eq_true]
  constructor
  · rintro ⟨-, s, _, hds⟩
    rw [decide_eq_true_iff] at hds
    exact le_trans (distance_pbc2_le_d2img hx hy hz p q s) hds
  · intro hd
    refine ⟨hr, optShift L p q, ?_, ?_⟩
    · apply mem_shifts3
      · refine round_bounds_of_abs_lt ?_
        rw [abs_div, abs_of_pos hx]
        exact (div_lt_one hx).mpr hbx
      · refine round_bounds_of_abs_lt ?_
        rw [abs_div, abs_of_pos hy]
        exact (div_lt_one hy).mpr hby
      · refine round_bounds_of_abs_lt ?_
        rw [abs_div, abs_of_pos hz]
        exact (div_lt_one hz).mpr hbz
    · rw [decide_eq_true_iff]
      show d2img L p q (optShift L p q) ≤ r ^ 2
      rw [d2img_optShift]
      exact hd

theorem query_ball_point_mem {L : Vec3} {coords : List Vec3} {r : ℚ}
    {i j : ℕ} (hg : GoodFrame L coords r) (hi : i < coords.length) :
    j ∈ query_ball_point L coords r (coords.getD i v0) ↔
      j < coords.length ∧
        distance_pbc2 (coords.getD i v0) (coords.getD j v0) L ≤ r^2 := by
  obtain ⟨hLx, hLy, hLz, hr, _, _, _, hbox, _, _⟩ := hg
  unfold query_ball_point
  rw [List.mem_filter, List.mem_range]
  constructor
  · rintro ⟨hj, hball⟩
    have hpi := hbox _ (getD_mem_of_lt hi v0)
    have hpj := hbox _ (getD_mem_of_lt hj v0)
    rw [withinBall_true_iff hLx hLy hLz (le_of_lt hr)
      (abs_lt.mpr ⟨by linarith [hpi.1, hpi.2.1, hpj.1, hpj.2.1],
        by linarith [hpi.1, hpi.2.1, hpj.1, hpj.2.1]⟩)
      (abs_lt.mpr ⟨by linarith [hpi.2.2.1, hpi.2.2.2.1, hpj.2.2.1,
        hpj.2.2.2.1], by linarith [hpi.2.2.1, hpi.2.2.2.1, hpj.2.2.1,
        hpj.2.2.2.1]⟩)
      (abs_lt.mpr ⟨by linarith [hpi.2.2.2.2.1, hpi.2.2.2.2.2, hpj.2.2.2.2.1,
        hpj.2.2.2.2.2], by linarith [hpi.2.2.2.2.1, hpi.2.2.2.2.2,
        hpj.2.2.2.2.1, hpj.2.2.2.2.2]⟩)] at hball
    exact ⟨hj, hball⟩
  · rintro ⟨hj, hd⟩
    have hpi := hbox _ (getD_mem_of_lt hi v0)
    have hpj := hbox _ (getD_mem_of_lt hj v0)
    refine ⟨hj, ?_⟩
    rw [withinBall_true_iff hLx hLy hLz (le_of_lt hr)
      (abs_lt.mpr ⟨by linarith [hpi.1, hpi.2.1, hpj.1, hpj.2.1],
        by linarith [hpi.1, hpi.2.1, hpj.1, hpj.2.1]⟩)
      (abs_lt.mpr ⟨by linarith [hpi.2.2.1, hpi.2.2.2.1, hpj.2.2.1,
        hpj.2.2.2.1], by linarith [hpi.2.2.1, hpi.2.2.2.1, hpj.2.2.1,
        hpj.2.2.2.1]⟩)
      (abs_lt.mpr ⟨by linarith [hpi.2.2.2.2.1, hpi.2.2.2.2.2, hpj.2.2.2.2.1,
        hpj.2.2.2.2.2], by linarith [hpi.2.2.2.2.1, hpi.2.2.2.2.2,
        hpj.2.2.2.2.1, hpj.2.2.2.2.2]⟩)]
    exact hd

theorem one_le_cast_sub_sq {a b : ℤ} (hab : a ≠ b) :
    (1 : ℚ) ≤ (((b - a : ℤ) : ℚ))^2 := by
  have h1 : (1 : ℤ) ≤ |b - a| := Int.one_le_abs (sub_ne_zero.mpr (Ne.symm hab))
  have h2 : (1 : ℚ) ≤ |((b - a : ℤ) : ℚ)| := by exact_mod_cast h1
  calc (1 : ℚ) = 1^2 := by norm_num
    _ ≤ |((b - a : ℤ) : ℚ)|^2 := pow_le_pow_left₀ (by norm_num) h2 2
    _ = (((b - a : ℤ) : ℚ))^2 := sq_abs _

theorem d2img_unique {L : Vec3} {r : ℚ} {p q : Vec3} {s t : ℤ × ℤ × ℤ}
    (hr : 0 < r) (hrx : 2*r < L.x) (hry : 2*r < L.y) (hrz : 2*r < L.z)
    (hst : s ≠ t) (hs : d2img L p q s ≤ r^2) (ht : d2img L p q t ≤ r^2) :
    False := by
  obtain ⟨s1, s2, s3⟩ := s
  obtain ⟨t1, t2, t3⟩ := t
  rw [d2img_expand] at hs ht
  simp only at hs ht
  have hdiff : s1 ≠ t1 ∨ s2 ≠ t2 ∨ s3 ≠ t3 := by
    by_contra hc
    push_neg at hc
    exact hst (by rw [hc.1, hc.2.1, hc.2.2])
  rcases hdiff with hd | hd | hd
  · refine axis_contradiction (u := p.x - (q.x + (s1:ℚ) * L.x))
      (v := p.x - (q.x + (t1:ℚ) * L.x)) hr hrx (one_le_cast_sub_sq hd)
      (by push_cast; ring) ?_ ?_
    · nlinarith [sq_nonneg (p.y - (q.y + (s2:ℚ) * L.y)),
        sq_nonneg (p.z - (q.z + (s3:ℚ) * L.z))]
    · nlinarith [sq_nonneg (p.y - (q.y + (t2:ℚ) * L.y)),
        sq_nonneg (p.z - (q.z + (t3:ℚ) * L.z))]
  · refine axis_contradiction (u := p.y - (q.y + (s2:ℚ) * L.y))
      (v := p.y - (q.y + (t2:ℚ) * L.y)) hr hry (one_le_cast_sub_sq hd)
      (by push_cast; ring) ?_ ?_
    · nlinarith [sq_nonneg (p.x - (q.x + (s1:ℚ) * L.x)),
        sq_nonneg (p.z - (q.z + (s3:ℚ) * L.z))]
    · nlinarith [sq_nonneg (p.x - (q.x + (t1:ℚ) * L.x)),
        sq_nonneg (p.z - (q.z + (t3:ℚ) * L.z))]
  · refine axis_contradiction (u := p.z - (q.z + (s3:ℚ) * L.z))
      (v := p.z - (q.z + (t3:ℚ) * L.z)) hr hrz (one_le_cast_sub_sq hd)
      (by push_cast; ring) ?_ ?_
    · nlinarith [sq_nonneg (p.x - (q.x + (s1:ℚ) * L.x)),
        sq_nonneg (p.y - (q.y + (s2:ℚ) * L.y))]
    · nlinarith [sq_nonneg (p.x - (q.x + (t1:ℚ) * L.x)),
        sq_nonneg (p.y - (q.y + (t2:ℚ) * L.y))]

theorem kdtree_candidates_mem {L : Vec3} {coords : List Vec3} {r : ℚ}
    {i : ℕ} {x : ℕ × ℚ} :
    x ∈ kdtree_candidates L coords r i ↔
      x.1 ∈ query_ball_point L coords r (coords.getD i v0) ∧
        x.2 = distance_pbc2 (coords.getD i v0) (coords.getD x.1 v0) L := by
  unfold kdtree_candidates
  rw [List.mem_map]
  constructor
  · rintro ⟨j, hj, rfl⟩
    exact ⟨hj, rfl⟩
  · rintro ⟨hj, hx⟩
    obtain ⟨x1, x2⟩ := x
    exact ⟨x1, hj, congrArg (Prod.mk x1) hx.symm⟩

theorem det3_mkDiag (L : Vec3) : det3 (mkDiag L) = L.x * L.y * L.z := by
  unfold det3 mkDiag
  ring

theorem inv3_mkDiag {L : Vec3} (hx : L.x ≠ 0) (hy : L.y ≠ 0)
    (hz : L.z ≠ 0) :
    inv3 (mkDiag L) = mkDiag ⟨1 / L.x, 1 / L.y, 1 / L.z⟩ := by
  unfold inv3 mkDiag det3
  simp only [Mat3.mk.injEq, Vec3.mk.injEq]
  norm_num
  and_intros <;> field_simp <;> ring

theorem mulRowVec_mkDiag (v L : Vec3) :
    mulRowVec v (mkDiag L) = ⟨v.x * L.x, v.y * L.y, v.z * L.z⟩ := by
  unfold mulRowVec mkDiag
  simp only [Vec3.mk.injEq]
  refine ⟨by ring, by ring, by ring⟩

theorem frac_coords_mkDiag {L : Vec3} (hx : L.x ≠ 0) (hy : L.y ≠ 0)
    (hz : L.z ≠ 0) (v : Vec3) :
    frac_coords (mkDiag L) v = ⟨v.x / L.x, v.y / L.y, v.z / L.z⟩ := by
  unfold frac_coords
  rw [inv3_mkDiag hx hy hz, mulRowVec_mkDiag]
  simp only [Vec3.mk.injEq]
  refine ⟨by ring, by ring, by ring⟩

theorem recpLen2_mkDiag {L : Vec3} (hx : L.x ≠ 0) (hy : L.y ≠ 0)
    (hz : L.z ≠ 0) :
    recpLen2 (mkDiag L) = ⟨1 / L.x^2, 1 / L.y^2, 1 / L.z^2⟩ := by
  unfold recpLen2
  rw [inv3_mkDiag hx hy hz]
  unfold mkDiag
  simp only [Vec3.mk.injEq]
  refine ⟨by ring, by ring, by ring⟩

theorem fract_eq_self {q : ℚ} (h0 : 0 ≤ q) (h1 : q < 1) : fract q = q := by
  unfold fract
  rw [Int.floor_eq_zero_iff.mpr ⟨h0, h1⟩]
  simp

theorem coordsInCell_mkDiag {L : Vec3} {coords : List Vec3}
    (hx : 0 < L.x) (hy : 0 < L.y) (hz : 0 < L.z)
    (hbox : ∀ p ∈ coords, 0 ≤ p.x ∧ p.x < L.x ∧ 0 ≤ p.y ∧ p.y < L.y ∧
      0 ≤ p.z ∧ p.z < L.z) :
    coordsInCell (mkDiag L) coords = coords := by
  unfold coordsInCell
  have hthis : ∀ p ∈ coords,
      mulRowVec (vfract (frac_coords (mkDiag L) p)) (mkDiag L) = p := by
    intro p hp
    obtain ⟨h1, h2, h3, h4, h5, h6⟩ := hbox p hp
    rw [frac_coords_mkDiag hx.ne' hy.ne' hz.ne']
    unfold vfract
    simp only
    rw [fract_eq_self (by positivity) ((div_lt_one hx).mpr h2),
      fract_eq_self (by positivity) ((div_lt_one hy).mpr h4),
      fract_eq_self (by positivity) ((div_lt_one hz).mpr h6),
      mulRowVec_mkDiag]
    simp only
    obtain ⟨px, py, pz⟩ := p
    simp only [Vec3.mk.injEq]
    exact ⟨div_mul_cancel₀ _ hx.ne', div_mul_cancel₀ _ hy.ne',
      div_mul_cancel₀ _ hz.ne'⟩
  rw [List.map_congr_left hthis]
  exact List.map_id' coords

theorem ceilSqrt_pos {x : ℚ} (hx : 0 < x) : 1 ≤ ceilSqrt x := by
  unfold ceilSqrt
  rw [if_neg (not_le.mpr hx)]
  by_cases hs : x ≤ (Nat.sqrt ⌈x⌉.toNat : ℚ)^2
  · rw [if_pos hs]
    by_contra hlt
    push_neg at hlt
    have h0 : Nat.sqrt ⌈x⌉.toNat = 0 := by omega
    rw [h0] at hs
    norm_num at hs
    exact absurd (lt_of_lt_of_le hx hs) (by norm_num)
  · rw [if_neg hs]
    omega

theorem maxrAxis_ge_one {r Lq : ℚ} (hr : 0 < r) (hL : 0 < Lq) :
    1 ≤ maxrAxis r (1 / Lq^2) := by
  unfold maxrAxis
  rw [if_neg (by push_neg; linarith : ¬ (r + 3/20 ≤ 0))]
  have h1 : 0 < (r + 3/20)^2 * (1 / Lq^2) := by positivity
  exact_mod_cast ceilSqrt_pos h1

theorem mem_rangeZ {a b s : ℤ} : s ∈ rangeZ a b ↔ a ≤ s ∧ s < b := by
  unfold rangeZ
  simp only [List.mem_map, List.mem_range]
  constructor
  · rintro ⟨k, hk, rfl⟩
    omega
  · intro h
    exact ⟨(s - a).toNat, by omega, by omega⟩

theorem rangeZ_nodup (a b : ℤ) : (rangeZ a b).Nodup := by
  unfold rangeZ
  exact (List.nodup_range _).map (fun m n h => by omega)

theorem le_foldl_min {c : ℚ} {t : List ℚ} :
    ∀ {acc : ℚ}, c ≤ acc → (∀ x ∈ t, c ≤ x) → c ≤ t.foldl min acc := by
  induction t with
  | nil => intro acc h _; exact h
  | cons b t ih =>
    intro acc hacc hall
    exact ih (le_min hacc (hall b (List.mem_cons_self _ _)))
      fun x hx => hall x (List.mem_cons_of_mem _ hx)

theorem foldl_min_le_acc {t : List ℚ} :
    ∀ {acc : ℚ}, t.foldl min acc ≤ acc := by
  induction t with
  | nil => intro acc; exact le_refl _
  | cons b t ih =>
    intro acc
    exact le_trans ih (min_le_left acc b)

theorem foldl_max_lt {c : ℚ} {t : List ℚ} :
    ∀ {acc : ℚ}, acc < c → (∀ x ∈ t, x < c) → t.foldl max acc < c := by
  induction t with
  | nil => intro acc h _; exact h
  | cons b t ih =>
    intro acc hacc hall
    exact ih (max_lt hacc (hall b (List.mem_cons_self _ _)))
      fun x hx => hall x (List.mem_cons_of_mem _ hx)

theorem acc_le_foldl_max {t : List ℚ} :
    ∀ {acc : ℚ}, acc ≤ t.foldl max acc := by
  induction t with
  | nil => intro acc; exact le_refl _
  | cons b t ih =>
    intro acc
    exact le_trans (le_max_left acc b) ih

theorem le_foldl_max_of_mem {x : ℚ} {t : List ℚ} :
    ∀ {acc : ℚ}, x ∈ t → x ≤ t.foldl max acc := by
  induction t with
  | nil => intro acc h; cases h
  | cons b t ih =>
    intro acc h
    rcases List.mem_cons.mp h with rfl | h2
    · exact le_trans (le_max_right acc x) acc_le_foldl_max
    · exact ih h2

theorem listMinQ_floor_eq_zero {l : List ℚ} (hne : l ≠ [])
    (h0 : ∀ x ∈ l, 0 ≤ x) (h1 : ∀ x ∈ l, x < 1) :
    ⌊listMinQ l⌋ = 0 := by
  cases l with
  | nil => exact absurd rfl hne
  | cons a t =>
    refine Int.floor_eq_zero_iff.mpr ⟨?_, ?_⟩
    · exact le_foldl_min (h0 a (List.mem_cons_self _ _))
        fun x hx => h0 x (List.mem_cons_of_mem _ hx)
    · exact lt_of_le_of_lt foldl_min_le_acc (h1 a (List.mem_cons_self _ _))

theorem listMaxQ_bounds {l : List ℚ} (hne : l ≠ [])
    (h0 : ∀ x ∈ l, 0 ≤ x) (h1 : ∀ x ∈ l, x < 1) :
    0 ≤ ⌈listMaxQ l⌉ ∧ ⌈listMaxQ l⌉ ≤ 1 := by
  cases l with
  | nil => exact absurd rfl hne
  | cons a t =>
    constructor
    · refine Int.ceil_nonneg ?_
      exact le_trans (h0 a (List.mem_cons_self _ _)) acc_le_foldl_max
    · refine Int.ceil_le.mpr ?_
      push_cast
      exact le_of_lt (foldl_max_lt (h1 a (List.mem_cons_self _ _))
        fun x hx => h1 x (List.mem_cons_of_mem _ hx))

theorem pairwise_flatMap_of {α β : Type} {R : β → β → Prop} {f : α → List β} :
    ∀ {l : List α}, (∀ a ∈ l, (f a).Pairwise R) →
      l.Pairwise (fun a b => ∀ x ∈ f a, ∀ y ∈ f b, R x y) →
      (l.flatMap f).Pairwise R := by
  intro l
  induction l with
  | nil => intro _ _; simp
  | cons a t ih =>
    intro h1 h2
    rw [List.flatMap_cons, List.pairwise_append]
    obtain ⟨hat, ht⟩ := List.pairwise_cons.mp h2
    refine ⟨h1 a (List.mem_cons_self _ _),
      ih (fun b hb => h1 b (List.mem_cons_of_mem _ hb)) ht, ?_⟩
    intro x hx y hy
    rcases List.mem_flatMap.mp hy with ⟨b, hb, hyb⟩
    exact hat b hb x hx y hyb

theorem imageRange_nodup (r recp2 : ℚ) (fracs : List ℚ) :
    (imageRange r recp2 fracs).Nodup := by
  unfold imageRange
  exact rangeZ_nodup _ _

theorem mem_imageList {m : Mat3} {coords : List Vec3} {r : ℚ}
    {s : ℤ × ℤ × ℤ} :
    s ∈ imageList m coords r ↔
      s.1 ∈ imageRange r (recpLen2 m).x
          ((coords.map (frac_coords m)).map Vec3.x) ∧
        s.2.1 ∈ imageRange r (recpLen2 m).y
          ((coords.map (frac_coords m)).map Vec3.y) ∧
        s.2.2 ∈ imageRange r (recpLen2 m).z
          ((coords.map (frac_coords m)).map Vec3.z) := by
  unfold imageList
  simp only [List.mem_flatMap, List.mem_map]
  constructor
  · rintro ⟨a, ha, b, hb, c, hc, rfl⟩
    exact ⟨ha, hb, hc⟩
  · obtain ⟨a, b, c⟩ := s
    rintro ⟨ha, hb, hc⟩
    exact ⟨a, ha, b, hb, c, hc, rfl⟩

theorem imageList_pairwise_ne (m : Mat3) (coords : List Vec3) (r : ℚ) :
    (imageList m coords r).Pairwise (· ≠ ·) := by
  unfold imageList
  apply pairwise_flatMap_of
  · intro a _
    apply pairwise_flatMap_of
    · intro b _
      refine List.Nodup.map ?_ (imageRange_nodup _ _ _)
      intro c1 c2 h
      simpa using h
    · refine (imageRange_nodup _ _ _).imp ?_
      intro b b2 hne x hx y hy
      rcases List.mem_map.mp hx with ⟨c1, _, rfl⟩
      rcases List.mem_map.mp hy with ⟨c2, _, rfl⟩
      intro hxy
      simp only [Prod.mk.injEq] at hxy
      exact hne hxy.2.1
  · refine (imageRange_nodup _ _ _).imp ?_
    intro a a2 hne x hx y hy
    rcases List.mem_flatMap.mp hx with ⟨b1, _, hx2⟩
    rcases List.mem_map.mp hx2 with ⟨c1, _, rfl⟩
    rcases List.mem_flatMap.mp hy with ⟨b2, _, hy2⟩
    rcases List.mem_map.mp hy2 with ⟨c2, _, rfl⟩
    intro hxy
    simp only [Prod.mk.injEq] at hxy
    exact hne hxy.1

theorem vadd_comm (a b : Vec3) : vadd a b = vadd b a := by
  unfold vadd
  simp only [Vec3.mk.injEq]
  refine ⟨by ring, by ring, by ring⟩

theorem direct_body_eq {L : Vec3} {coords : List Vec3}
    (hx : 0 < L.x) (hy : 0 < L.y) (hz : 0 < L.z)
    (hbox : ∀ p ∈ coords, 0 ≤ p.x ∧ p.x < L.x ∧ 0 ≤ p.y ∧ p.y < L.y ∧
      0 ≤ p.z ∧ p.z < L.z) (i j : ℕ) (s : ℤ × ℤ × ℤ) :
    dist2 (coords.getD i v0) (vadd (mulRowVec (intVec3 s) (mkDiag L))
        ((coordsInCell (mkDiag L) coords).getD j v0))
      = d2img L (coords.getD i v0) (coords.getD j v0) s := by
  rw [coordsInCell_mkDiag hx hy hz hbox]
  unfold d2img
  rw [vadd_comm]
  congr 1
  rw [mulRowVec_mkDiag]
  unfold shiftVec intVec3
  rfl

theorem d2img_self_zero (L p : Vec3) : d2img L p p (0, 0, 0) = 0 := by
  rw [d2img_expand]
  push_cast
  ring

theorem fracs_axis_x {L : Vec3} {coords : List Vec3} (hx : L.x ≠ 0)
    (hy : L.y ≠ 0) (hz : L.z ≠ 0) :
    (coords.map (frac_coords (mkDiag L))).map Vec3.x
      = coords.map fun p => p.x / L.x := by
  rw [List.map_map]
  apply List.map_congr_left
  intro p _
  show (frac_coords (mkDiag L) p).x = p.x / L.x
  rw [frac_coords_mkDiag hx hy hz]

theorem fracs_axis_y {L : Vec3} {coords : List Vec3} (hx : L.x ≠ 0)
    (hy : L.y ≠ 0) (hz : L.z ≠ 0) :
    (coords.map (frac_coords (mkDiag L))).map Vec3.y
      = coords.map fun p => p.y / L.y := by
  rw [List.map_map]
  apply List.map_congr_left
  intro p _
  show (frac_coords (mkDiag L) p).y = p.y / L.y
  rw [frac_coords_mkDiag hx hy hz]

theorem fracs_axis_z {L : Vec3} {coords : List Vec3} (hx : L.x ≠ 0)
    (hy : L.y ≠ 0) (hz : L.z ≠ 0) :
    (coords.map (frac_coords (mkDiag L))).map Vec3.z
      = coords.map fun p => p.z / L.z := by
  rw [List.map_map]
  apply List.map_congr_left
  intro p _
  show (frac_coords (mkDiag L) p).z = p.z / L.z
  rw [frac_coords_mkDiag hx hy hz]

theorem round_mem_imageRange {r Lq pi qj : ℚ} {vals : List ℚ}
    (hr : 0 < r) (hL : 0 < Lq) (hne : vals ≠ [])
    (hvals0 : ∀ x ∈ vals, 0 ≤ x) (hvals1 : ∀ x ∈ vals, x < 1)
    (hpi : pi / Lq ∈ vals)
    (hpib : 0 ≤ pi ∧ pi < Lq) (hqjb : 0 ≤ qj ∧ qj < Lq) :
    round ((pi - qj) / Lq) ∈ imageRange r (1 / Lq^2) vals := by
  have hmaxr : 1 ≤ maxrAxis r (1 / Lq^2) := maxrAxis_ge_one hr hL
  have hceil := listMaxQ_bounds hne hvals0 hvals1
  have habs : |(pi - qj) / Lq| < 1 := by
    rw [abs_div, abs_of_pos hL]
    rw [div_lt_one hL]
    rw [abs_lt]
    constructor <;> linarith [hpib.1, hpib.2, hqjb.1, hqjb.2]
  have hfloor := listMinQ_floor_eq_zero hne hvals0 hvals1
  unfold imageRange
  rw [mem_rangeZ, hfloor]
  rcases round_mem_of_abs_lt_one habs with he | he | he
  · rw [he]
    omega
  · rw [he]
    omega
  · rw [he]
    have hhalf : (1/2 : ℚ) ≤ (pi - qj) / Lq := half_le_of_round_eq_one he
    have hpiq : (pi - qj) / Lq ≤ pi / Lq := by
      apply div_le_div_of_nonneg_right ?_ hL.le
      linarith [hqjb.1]
    have hmax : (1/2 : ℚ) ≤ listMaxQ vals := by
      cases vals with
      | nil => exact absurd rfl hne
      | cons a t =>
        have hval : pi / Lq ≤ listMaxQ (a :: t) := by
          rcases List.mem_cons.mp hpi with heq | hmem
          · show pi / Lq ≤ t.foldl max a
            rw [heq]
            exact acc_le_foldl_max
          · exact le_foldl_max_of_mem hmem
        linarith [le_trans hhalf hpiq]
    have hcpos : 0 < ⌈listMaxQ vals⌉ := Int.ceil_pos.mpr (by linarith)
    omega

theorem optShift_mem_imageList {L : Vec3} {coords : List Vec3} {r : ℚ}
    {i j : ℕ} (hg : GoodFrame L coords r) (hi : i < coords.length)
    (hj : j < coords.length) :
    optShift L (coords.getD i v0) (coords.getD j v0)
      ∈ imageList (mkDiag L) coords r := by
  obtain ⟨hLx, hLy, hLz, hr, _, _, _, hbox, _, _⟩ := hg
  have hne : coords ≠ [] := by
    intro h
    rw [h] at hi
    exact absurd hi (by simp)
  have hpi := hbox _ (getD_mem_of_lt hi v0)
  have hpj := hbox _ (getD_mem_of_lt hj v0)
  rw [mem_imageList, recpLen2_mkDiag hLx.ne' hLy.ne' hLz.ne',
    fracs_axis_x hLx.ne' hLy.ne' hLz.ne', fracs_axis_y hLx.ne' hLy.ne' hLz.ne',
    fracs_axis_z hLx.ne' hLy.ne' hLz.ne']
  have hmne : ∀ f : Vec3 → ℚ, coords.map f ≠ [] := by
    intro f h
    exact hne (by simpa using h)
  refine ⟨?_, ?_, ?_⟩
  · show round (((coords.getD i v0).x - (coords.getD j v0).x) / L.x) ∈ _
    refine round_mem_imageRange hr hLx (hmne _) ?_ ?_ ?_
      ⟨hpi.1, hpi.2.1⟩ ⟨hpj.1, hpj.2.1⟩
    · intro t ht
      rcases List.mem_map.mp ht with ⟨p, hp, rfl⟩
      exact div_nonneg (hbox p hp).1 hLx.le
    · intro t ht
      rcases List.mem_map.mp ht with ⟨p, hp, rfl⟩
      exact (div_lt_one hLx).mpr (hbox p hp).2.1
    · exact List.mem_map.mpr ⟨_, getD_mem_of_lt hi v0, rfl⟩
  · show round (((coords.getD i v0).y - (coords.getD j v0).y) / L.y) ∈ _
    refine round_mem_imageRange hr hLy (hmne _) ?_ ?_ ?_
      ⟨hpi.2.2.1, hpi.2.2.2.1⟩ ⟨hpj.2.2.1, hpj.2.2.2.1⟩
    · intro t ht
      rcases List.mem_map.mp ht with ⟨p, hp, rfl⟩
      exact div_nonneg (hbox p hp).2.2.1 hLy.le
    · intro t ht
      rcases List.mem_map.mp ht with ⟨p, hp, rfl⟩
      exact (div_lt_one hLy).mpr (hbox p hp).2.2.2.1
    · exact List.mem_map.mpr ⟨_, getD_mem_of_lt hi v0, rfl⟩
  · show round (((coords.getD i v0).z - (coords.getD j v0).z) / L.z) ∈ _
    refine round_mem_imageRange hr hLz (hmne _) ?_ ?_ ?_
      ⟨hpi.2.2.2.2.1, hpi.2.2.2.2.2⟩ ⟨hpj.2.2.2.2.1, hpj.2.2.2.2.2⟩
    · intro t ht
      rcases List.mem_map.mp ht with ⟨p, hp, rfl⟩
      exact div_nonneg (hbox p hp).2.2.2.2.1 hLz.le
    · intro t ht
      rcases List.mem_map.mp ht with ⟨p, hp, rfl⟩
      exact (div_lt_one hLz).mpr (hbox p hp).2.2.2.2.2
    · exact List.mem_map.mpr ⟨_, getD_mem_of_lt hi v0, rfl⟩

theorem direct_entry_elim {L : Vec3} {coords : List Vec3} {r : ℚ} {i j : ℕ}
    (hLx : 0 < L.x) (hLy : 0 < L.y) (hLz : 0 < L.z)
    (hbox : ∀ p ∈ coords, 0 ≤ p.x ∧ p.x < L.x ∧ 0 ≤ p.y ∧ p.y < L.y ∧
      0 ≤ p.z ∧ p.z < L.z) {s : ℤ × ℤ × ℤ} {x : ℕ × ℚ}
    (h : (if (1 / 100000000 : ℚ) ^ 2
            < dist2 (coords.getD i v0) (vadd (mulRowVec (intVec3 s) (mkDiag L))
                ((coordsInCell (mkDiag L) coords).getD j v0)) ∧
          dist2 (coords.getD i v0) (vadd (mulRowVec (intVec3 s) (mkDiag L))
              ((coordsInCell (mkDiag L) coords).getD j v0)) ≤ r ^ 2 ∧
          0 ≤ r then
        some (j, dist2 (coords.getD i v0) (vadd (mulRowVec (intVec3 s) (mkDiag L))
          ((coordsInCell (mkDiag L) coords).getD j v0)))
      else none) = some x) :
    x = (j, d2img L (coords.getD i v0) (coords.getD j v0) s) ∧
      (1 / 100000000 : ℚ) ^ 2
        < d2img L (coords.getD i v0) (coords.getD j v0) s ∧
      d2img L (coords.getD i v0) (coords.getD j v0) s ≤ r ^ 2 ∧ 0 ≤ r := by
  rw [direct_body_eq hLx hLy hLz hbox i j s] at h
  by_cases hc : (1 / 100000000 : ℚ) ^ 2
      < d2img L (coords.getD i v0) (coords.getD j v0) s ∧
      d2img L (coords.getD i v0) (coords.getD j v0) s ≤ r ^ 2 ∧ 0 ≤ r
  · rw [if_pos hc] at h
    cases h
    exact ⟨rfl, hc⟩
  · rw [if_neg hc] at h
    cases h

theorem direct_candidates_mem {L : Vec3} {coords : List Vec3} {r : ℚ}
    {i : ℕ} (hg : GoodFrame L coords r) (hi : i < coords.length)
    (x : ℕ × ℚ) :
    x ∈ direct_candidates (mkDiag L) coords r i ↔
      x.1 < coords.length ∧ x.1 ≠ i ∧
        x.2 = distance_pbc2 (coords.getD i v0) (coords.getD x.1 v0) L ∧
        x.2 ≤ r ^ 2 := by
  have hgg := hg
  obtain ⟨hLx, hLy, hLz, hr, hrx, hry, hrz, hbox, htol, hdist⟩ := hg
  unfold direct_candidates
  simp only [List.mem_flatMap, List.mem_filterMap, List.mem_range]
  constructor
  · rintro ⟨s, hs, j, hj, hif⟩
    obtain ⟨hx, htl, hle, hr0⟩ := direct_entry_elim hLx hLy hLz hbox hif
    subst hx
    by_cases hji : j = i
    · exfalso
      subst hji
      by_cases hs0 : s = (0, 0, 0)
      · subst hs0
        rw [d2img_self_zero] at htl
        norm_num at htl
      · exact d2img_unique hr hrx hry hrz hs0 hle
          (by rw [d2img_self_zero]; positivity)
    · by_cases hso : s = optShift L (coords.getD i v0) (coords.getD j v0)
      · subst hso
        exact ⟨hj, hji, (d2img_optShift L _ _).symm ▸ rfl, hle⟩
      · exfalso
        refine d2img_unique hr hrx hry hrz hso hle ?_
        rw [d2img_optShift]
        exact le_trans (distance_pbc2_le_d2img hLx hLy hLz _ _ s) hle
  · obtain ⟨x1, x2⟩ := x
    rintro ⟨hj, hji, hx2, hxle⟩
    have hcond : (1 / 100000000 : ℚ) ^ 2
        < distance_pbc2 (coords.getD i v0) (coords.getD x1 v0) L ∧
        distance_pbc2 (coords.getD i v0) (coords.getD x1 v0) L ≤ r ^ 2 ∧
        0 ≤ r := by
      refine ⟨?_, ?_, hr.le⟩
      · exact htol i (List.mem_range.mpr hi) x1 (List.mem_range.mpr hj)
          (Ne.symm hji)
      · exact hx2 ▸ hxle
    refine ⟨optShift L (coords.getD i v0) (coords.getD x1 v0),
      optShift_mem_imageList hgg hi hj, x1, hj, ?_⟩
    rw [direct_body_eq hLx hLy hLz hbox i x1 _, d2img_optShift, if_pos hcond]
    exact congrArg some (congrArg (Prod.mk x1) hx2.symm)

theorem direct_candidates_fst_ne {L : Vec3} {coords : List Vec3} {r : ℚ}
    {i : ℕ} (hg : GoodFrame L coords r) :
    (direct_candidates (mkDiag L) coords r i).Pairwise
      fun a b => a.1 ≠ b.1 := by
  obtain ⟨hLx, hLy, hLz, hr, hrx, hry, hrz, hbox, htol, hdist⟩ := hg
  unfold direct_candidates
  apply pairwise_flatMap_of
  · intro s _
    refine List.Pairwise.filterMap _ ?_ (List.pairwise_lt_range _)
    intro a b hab x hx y hy
    rw [Option.mem_def] at hx hy
    obtain ⟨hxa, -, -, -⟩ := direct_entry_elim hLx hLy hLz hbox hx
    obtain ⟨hyb, -, -, -⟩ := direct_entry_elim hLx hLy hLz hbox hy
    rw [hxa, hyb]
    exact Nat.ne_of_lt hab
  · refine (imageList_pairwise_ne _ _ _).imp ?_
    intro s t hst x hx y hy
    rcases List.mem_filterMap.mp hx with ⟨a, _, hfa⟩
    rcases List.mem_filterMap.mp hy with ⟨b, _, hfb⟩
    obtain ⟨hxa, -, hlea, -⟩ := direct_entry_elim hLx hLy hLz hbox hfa
    obtain ⟨hyb, -, hleb, -⟩ := direct_entry_elim hLx hLy hLz hbox hfb
    rw [hxa, hyb]
    intro hfst
    simp only at hfst
    rw [hfst] at hlea
    exact d2img_unique hr hrx hry hrz hst hlea hleb

/-- Strict distance order on candidate pairs. -/
def distLt (a b : ℕ × ℚ) : Prop := a.2 < b.2

/-- Two strictly sorted lists with the same members are equal. -/
theorem sorted_lists_eq : ∀ {l1 l2 : List (ℕ × ℚ)}, l1.Pairwise distLt →
    l2.Pairwise distLt → (∀ x, x ∈ l1 ↔ x ∈ l2) → l1 = l2 := by
  intro l1
  induction l1 with
  | nil =>
    intro l2 _ _ hmem
    cases l2 with
    | nil => rfl
    | cons b t2 => exact absurd ((hmem b).mpr (List.mem_cons_self _ _)) (by simp)
  | cons a t1 ih =>
    intro l2 h1 h2 hmem
    cases l2 with
    | nil => exact absurd ((hmem a).mp (List.mem_cons_self _ _)) (by simp)
    | cons b t2 =>
      obtain ⟨ha1, ht1⟩ := List.pairwise_cons.mp h1
      obtain ⟨hb2, ht2⟩ := List.pairwise_cons.mp h2
      have hab : a = b := by
        by_contra hne
        have hat2 : a ∈ t2 := by
          rcases List.mem_cons.mp ((hmem a).mp (List.mem_cons_self _ _)) with
            heq | h
          · exact absurd heq hne
          · exact h
        have hbt1 : b ∈ t1 := by
          rcases List.mem_cons.mp ((hmem b).mpr (List.mem_cons_self _ _)) with
            heq | h
          · exact absurd heq.symm hne
          · exact h
        exact absurd (lt_trans (hb2 a hat2) (ha1 b hbt1)) (lt_irrefl _)
      subst hab
      have hmem2 : ∀ x, x ∈ t1 ↔ x ∈ t2 := by
        intro x
        constructor
        · intro hx
          rcases List.mem_cons.mp ((hmem x).mp (List.mem_cons_of_mem _ hx))
            with heq | h
          · subst heq
            exact absurd (ha1 x hx) (lt_irrefl _)
          · exact h
        · intro hx
          rcases List.mem_cons.mp ((hmem x).mpr (List.mem_cons_of_mem _ hx))
            with heq | h
          · subst heq
            exact absurd (hb2 x hx) (lt_irrefl _)
          · exact h
      rw [ih ht1 ht2 hmem2]

theorem kdtree_candidates_mem_iff {L : Vec3} {coords : List Vec3} {r : ℚ}
    {i : ℕ} (hg : GoodFrame L coords r) (hi : i < coords.length)
    (x : ℕ × ℚ) :
    x ∈ kdtree_candidates L coords r i ↔
      x.1 < coords.length ∧
        x.2 = distance_pbc2 (coords.getD i v0) (coords.getD x.1 v0) L ∧
        x.2 ≤ r ^ 2 := by
  rw [kdtree_candidates_mem, query_ball_point_mem hg hi]
  constructor
  · rintro ⟨⟨h1, h2⟩, h3⟩
    exact ⟨h1, h3, h3 ▸ h2⟩
  · rintro ⟨h1, h2, h3⟩
    exact ⟨⟨h1, h2 ▸ h3⟩, h2⟩

theorem kdtree_sorted_mem_iff {L : Vec3} {coords : List Vec3} {r : ℚ}
    {i : ℕ} (hg : GoodFrame L coords r) (hi : i < coords.length)
    (x : ℕ × ℚ) :
    x ∈ kdtree_sorted L coords r i ↔
      x.1 < coords.length ∧
        x.2 = distance_pbc2 (coords.getD i v0) (coords.getD x.1 v0) L ∧
        x.2 ≤ r ^ 2 := by
  rw [show kdtree_sorted L coords r i
      = sortByDist (kdtree_candidates L coords r i) from rfl]
  rw [(sortByDist_perm _).mem_iff]
  exact kdtree_candidates_mem_iff hg hi x

theorem kdtree_sorted_head {L : Vec3} {coords : List Vec3} {r : ℚ} {i : ℕ}
    (hg : GoodFrame L coords r) (hi : i < coords.length) :
    ∃ tail, kdtree_sorted L coords r i = (i, 0) :: tail := by
  have hmem : ((i, (0:ℚ)) : ℕ × ℚ) ∈ kdtree_sorted L coords r i := by
    rw [kdtree_sorted_mem_iff hg hi]
    refine ⟨hi, (distance_pbc2_self _ _).symm, ?_⟩
    positivity
  have hgg := hg
  obtain ⟨-, -, -, -, -, -, -, -, htol, -⟩ := hgg
  cases hs : kdtree_sorted L coords r i with
  | nil =>
    rw [hs] at hmem
    cases hmem
  | cons hd tl =>
    have hsorted := kdtree_sorted_sorted L coords r i
    rw [hs] at hsorted hmem
    rcases List.mem_cons.mp hmem with heq | htl
    · exact ⟨tl, by rw [← heq]⟩
    · have hle0 : hd.2 ≤ 0 := (List.pairwise_cons.mp hsorted).1 (i, 0) htl
      have hhd : hd ∈ kdtree_sorted L coords r i := by
        rw [hs]
        exact List.mem_cons_self _ _
      rw [kdtree_sorted_mem_iff hg hi] at hhd
      obtain ⟨hhd1, hhd2, -⟩ := hhd
      have h0 : 0 ≤ hd.2 := by
        rw [hhd2]
        exact distance_pbc2_nonneg _ _ _
      have hz : hd.2 = 0 := le_antisymm hle0 h0
      by_cases hdi : hd.1 = i
      · refine ⟨tl, ?_⟩
        have : hd = (i, 0) := by
          obtain ⟨h1, h2⟩ := hd
          simp only at hdi hz
          rw [hdi, hz]
        rw [← this]
      · exfalso
        have := htol i (List.mem_range.mpr hi) hd.1 (List.mem_range.mpr hhd1)
          (fun h => hdi h.symm)
        rw [← hhd2, hz] at this
        exact absurd this (by norm_num)

theorem tail_strict {L : Vec3} {coords : List Vec3} {r : ℚ} {i : ℕ}
    (hg : GoodFrame L coords r) (hi : i < coords.length)
    {tail : List (ℕ × ℚ)}
    (hs : kdtree_sorted L coords r i = (i, 0) :: tail) :
    tail.Pairwise distLt := by
  have hgg := hg
  obtain ⟨-, -, -, -, -, -, -, -, -, hdist⟩ := hg
  have hsorted := kdtree_sorted_sorted L coords r i
  have htie := kdtree_sorted_tie L coords r i
  rw [hs] at hsorted htie
  have hboth := ((List.pairwise_cons.mp hsorted).2).and
    ((List.pairwise_cons.mp htie).2)
  refine hboth.imp_of_mem ?_
  intro a b ha hb hab
  have hamem : a ∈ kdtree_sorted L coords r i := by
    rw [hs]
    exact List.mem_cons_of_mem _ ha
  have hbmem : b ∈ kdtree_sorted L coords r i := by
    rw [hs]
    exact List.mem_cons_of_mem _ hb
  rw [kdtree_sorted_mem_iff hgg hi] at hamem hbmem
  show a.2 < b.2
  rcases lt_or_eq_of_le hab.1 with h | h
  · exact h
  · exfalso
    have hfst : a.1 < b.1 := hab.2 h
    have := hdist i (List.mem_range.mpr hi) a.1 (List.mem_range.mpr hamem.1)
      b.1 (List.mem_range.mpr hbmem.1) (Nat.ne_of_lt hfst)
      (hamem.2.1 ▸ hamem.2.2) (hbmem.2.1 ▸ hbmem.2.2)
    rw [← hamem.2.1, ← hbmem.2.1] at this
    exact this h

theorem tail_mem_iff {L : Vec3} {coords : List Vec3} {r : ℚ} {i : ℕ}
    (hg : GoodFrame L coords r) (hi : i < coords.length)
    {tail : List (ℕ × ℚ)}
    (hs : kdtree_sorted L coords r i = (i, 0) :: tail) (x : ℕ × ℚ) :
    x ∈ tail ↔
      x.1 < coords.length ∧ x.1 ≠ i ∧
        x.2 = distance_pbc2 (coords.getD i v0) (coords.getD x.1 v0) L ∧
        x.2 ≤ r ^ 2 := by
  have hnodup := kdtree_sorted_fst_nodup L coords r i
  rw [hs] at hnodup
  simp only [List.map_cons] at hnodup
  have hni : i ∉ tail.map Prod.fst := (List.nodup_cons.mp hnodup).1
  constructor
  · intro hx
    have hxm : x ∈ kdtree_sorted L coords r i := by
      rw [hs]
      exact List.mem_cons_of_mem _ hx
    rw [kdtree_sorted_mem_iff hg hi] at hxm
    refine ⟨hxm.1, ?_, hxm.2.1, hxm.2.2⟩
    intro hxi
    exact hni (List.mem_map.mpr ⟨x, hx, hxi⟩)
  · rintro ⟨h1, h2, h3, h4⟩
    have hxm : x ∈ kdtree_sorted L coords r i := by
      rw [kdtree_sorted_mem_iff hg hi]
      exact ⟨h1, h3, h4⟩
    rw [hs] at hxm
    rcases List.mem_cons.mp hxm with heq | h
    · exfalso
      apply h2
      rw [heq]
    · exact h

theorem direct_sorted_strict {L : Vec3} {coords : List Vec3} {r : ℚ}
    {i : ℕ} (hg : GoodFrame L coords r) (hi : i < coords.length) :
    (direct_sorted (mkDiag L) coords r i).Pairwise distLt := by
  have hgg := hg
  obtain ⟨-, -, -, -, -, -, -, -, -, hdist⟩ := hg
  have hsorted : (direct_sorted (mkDiag L) coords r i).Pairwise distLe :=
    sorted_sortByDist _
  have hfst : (direct_sorted (mkDiag L) coords r i).Pairwise
      fun a b => a.1 ≠ b.1 := by
    have hperm : List.Perm (direct_sorted (mkDiag L) coords r i)
        (direct_candidates (mkDiag L) coords r i) := sortByDist_perm _
    exact (hperm.pairwise_iff (fun h => Ne.symm h)).mpr
      (direct_candidates_fst_ne hgg)
  refine (hsorted.and hfst).imp_of_mem ?_
  intro a b ha hb hab
  have hamem := ha
  have hbmem := hb
  rw [show direct_sorted (mkDiag L) coords r i
      = sortByDist (direct_candidates (mkDiag L) coords r i) from rfl,
    (sortByDist_perm _).mem_iff, direct_candidates_mem hgg hi] at hamem hbmem
  show a.2 < b.2
  rcases lt_or_eq_of_le hab.1 with h | h
  · exact h
  · exfalso
    have := hdist i (List.mem_range.mpr hi) a.1 (List.mem_range.mpr hamem.1)
      b.1 (List.mem_range.mpr hbmem.1) hab.2
      (hamem.2.2.1 ▸ hamem.2.2.2) (hbmem.2.2.1 ▸ hbmem.2.2.2)
    rw [← hamem.2.2.1, ← hbmem.2.2.1] at this
    exact this h

/-- Per-atom backend agreement on a good frame: the kdtree sorted candidate
list is the self entry followed by precisely the direct backend's sorted
candidate list. -/
theorem backend_agreement_atom {L : Vec3} {coords : List Vec3} {r : ℚ}
    (n i : ℕ) (hg : GoodFrame L coords r) (hi : i < coords.length) :
    ∃ tail, kdtree_sorted L coords r i = (i, 0) :: tail ∧
      direct_sorted (mkDiag L) coords r i = tail ∧
      ∀ lst res, kdtree_atom n L coords r i = .ok lst →
        direct_atom n (mkDiag L) coords r i = .ok res → lst = res.1 := by
  obtain ⟨tail, hs⟩ := kdtree_sorted_head hg hi
  have hdirect : direct_sorted (mkDiag L) coords r i = tail := by
    refine sorted_lists_eq (direct_sorted_strict hg hi)
      (tail_strict hg hi hs) ?_
    intro x
    rw [tail_mem_iff hg hi hs x,
      show direct_sorted (mkDiag L) coords r i
        = sortByDist (direct_candidates (mkDiag L) coords r i) from rfl,
      (sortByDist_perm _).mem_iff, direct_candidates_mem hg hi]
  refine ⟨tail, hs, hdirect, ?_⟩
  intro lst res hk hd
  obtain ⟨rest, hs2, hn2, hlst⟩ := kdtree_atom_ok_elim hk
  rw [hs] at hs2
  have hrest : rest = tail := by
    injection hs2.symm with h1 h2
  subst hrest
  obtain ⟨hn, hres⟩ := direct_atom_ok_iff.mp hd
  rw [hres, hlst, hdirect]

instance (L : Vec3) (coords : List Vec3) (r : ℚ) :
    Decidable (GoodFrame L coords r) := by
  unfold GoodFrame
  infer_instance

theorem getD_eq_getElem {α : Type} {l : List α} {i : ℕ} (h : i < l.length)
    (d : α) : l.getD i d = l[i] := by
  rw [List.getD_eq_getElem?_getD, List.getElem?_eq_getElem h, Option.getD_some]

theorem range_getD {n i : ℕ} (h : i < n) : (List.range n).getD i 0 = i := by
  rw [List.getD_eq_getElem?_getD, List.getElem?_range h]
  rfl

/-- C9 (amended): on trajectories whose every frame has a diagonal lattice
with positive axes, atoms inside the box, a positive radius strictly below
half of every axis, all pairwise minimum-image distances above the direct
enumerator's tolerance, and no equal-distance tie among any query atom's
candidates within the radius, the two backends of `construct_graph` return
identical neighbor index tensors. -/
theorem C9_backend_agreement (n : ℕ) (r : ℚ) (traj : List (List Vec3))
    (lats : List Mat3) (ats tg : List ℤ) (outK outD : GraphOutput)
    (hgood : ∀ cl ∈ traj.zip lats, ∃ L, cl.2 = mkDiag L ∧ GoodFrame L cl.1 r)
    (hK : construct_graph ⟨n, r, .kdtree⟩ traj lats ats tg = .ok outK)
    (hD : construct_graph ⟨n, r, .direct⟩ traj lats ats tg = .ok outD) :
    outK.nbr_lists = outD.nbr_lists := by
  rcases construct_graph_kdtree_ok rfl hK with ⟨framesK, hmK, houtK⟩
  rcases construct_graph_direct_ok rfl hD with ⟨framesD, hmD, houtD⟩
  subst houtK
  subst houtD
  show framesK = framesD.map Prod.fst
  have hlenK := mapE_ok_length hmK
  have hlenD := mapE_ok_length hmD
  apply List.ext_getElem
  · rw [hlenK, List.length_map, hlenD]
  intro k hk1 hk2
  have hkz : k < (traj.zip lats).length := by
    rw [← hlenK]
    exact hk1
  have hfK := mapE_ok_getD hmK hkz ([], default) []
  have hfD := mapE_ok_getD hmD hkz ([], default) ([], [])
  obtain ⟨L, hlat, hgf⟩ :=
    hgood ((traj.zip lats).getD k ([], default)) (getD_mem_of_lt hkz _)
  rw [hlat] at hfK hfD
  rcases direct_frame_ok_elim hfD with ⟨l, hml, hpl⟩
  have hlen1 : (framesK.getD k []).length
      = ((traj.zip lats).getD k ([], default)).1.length :=
    (kdtree_frame_ok_shape hfK).1
  have hlen2 : l.length
      = ((traj.zip lats).getD k ([], default)).1.length := by
    rw [mapE_ok_length hml, List.length_range]
  have hframe : framesK.getD k [] = l.map Prod.fst := by
    apply List.ext_getElem
    · rw [hlen1, List.length_map, hlen2]
    intro i hi1 hi2
    have hiN : i < ((traj.zip lats).getD k ([], default)).1.length := by
      rw [← hlen1]
      exact hi1
    have hiL : i < l.length := by
      rw [hlen2]
      exact hiN
    have hatK := mapE_ok_getD hfK (by rw [List.length_range]; exact hiN) 0 []
    have hatD := mapE_ok_getD hml (by rw [List.length_range]; exact hiN) 0
      ([], [])
    rw [range_getD hiN] at hatK hatD
    obtain ⟨tail, -, -, hagree⟩ := backend_agreement_atom n i hgf hiN
    have heq := hagree _ _ hatK hatD
    calc (framesK.getD k [])[i]
        = (framesK.getD k []).getD i [] := (getD_eq_getElem hi1 []).symm
      _ = (l.getD i ([], [])).1 := by rw [heq]
      _ = (l[i]).1 := by rw [getD_eq_getElem hiL]
      _ = (l.map Prod.fst)[i] := by rw [List.getElem_map]
  have hkD : k < framesD.length := by
    rw [hlenD]
    exact hkz
  calc framesK[k]
      = framesK.getD k [] := (getD_eq_getElem hk1 []).symm
    _ = l.map Prod.fst := hframe
    _ = (framesD.getD k ([], [])).1 := by rw [hpl]
    _ = (framesD[k]).1 := by rw [getD_eq_getElem hkD]
    _ = (framesD.map Prod.fst)[k] := by rw [List.getElem_map]

/-- C9 witness: backend agreement instantiated on the concrete Scenario 1
trajectory (one frame, cubic box of side 10, radius 2). -/
theorem C9_backend_agreement_witness :
    outS1K.nbr_lists = outS1D.nbr_lists := by
  refine C9_backend_agreement 1 2 [coordsS1] [mkDiag ⟨10, 10, 10⟩] [8, 8]
    [0] outS1K outS1D ?_ (by with_unfolding_all rfl)
    (by with_unfolding_all rfl)
  intro cl hcl
  have hcl2 : cl ∈ [(coordsS1, mkDiag ⟨10, 10, 10⟩)] := hcl
  rw [List.mem_singleton] at hcl2
  subst hcl2
  exact ⟨⟨10, 10, 10⟩, rfl, of_decide_eq_true (by with_unfolding_all rfl)⟩

end GDyNet
